import Mathlib

/-!
Verification development for the CSV ingestion / schema profiling /
normalization pipeline of `src/normalizer.py`.

Dataframes are embedded as a list of column names plus a list of rows,
each row a list of optional cells (a missing value, pandas `NA`, is
`none`).  Cell payloads are either strings or integers, which covers all
values the claims exercise.  Column names are assumed unique, as pandas
`read_csv` mangles duplicate headers before any of the modelled code runs.
-/

/-- A scalar value held in a dataframe cell (string or integer payload). -/
inductive Val where
  | str (s : String)
  | int (n : Int)
deriving DecidableEq, Repr

/-- A dataframe cell: `none` is a missing value (pandas `NA`). -/
abbrev Cell := Option Val

/-- A dataframe row. -/
abbrev Row := List Cell

/-- A pandas dataframe: ordered column names and ordered rows. -/
structure DF where
  cols : List String
  rows : List Row
deriving DecidableEq, Repr

/-- First index of `c` in `l`, if any. -/
def idxOf? (l : List String) (c : String) : Option Nat :=
  match l with
  | [] => none
  | x :: xs => if x = c then some 0 else (idxOf? xs c).map (· + 1)

/-- The cell of row `row` (laid out along `cols`) at column `c`; `none` when absent. -/
def cellOf (cols : List String) (row : Row) (c : String) : Cell :=
  match idxOf? cols c with
  | some i => row.getD i none
  | none => none

/-- Column `c` of dataframe `d` as a list of cells (pandas `df[c]`). -/
def getCol (d : DF) (c : String) : List Cell :=
  d.rows.map (fun r => cellOf d.cols r c)

/-- `true` iff the list has no duplicate elements (pandas `Series.is_unique`,
which counts two missing values as duplicates of each other). -/
def noDupB {α : Type} [DecidableEq α] : List α → Bool
  | [] => true
  | x :: xs => !(xs.contains x) && noDupB xs

/-- `true` iff every cell is present (pandas `notna().all()`). -/
def allSome (l : List Cell) : Bool := l.all (·.isSome)

/-- Projection `df[cs]` keeping the column order `cs`. -/
def selectCols (d : DF) (cs : List String) : DF :=
  ⟨cs, d.rows.map (fun r => cs.map (cellOf d.cols r))⟩

/-- `df.drop(columns=cs)`. -/
def dropCols (d : DF) (cs : List String) : DF :=
  let keep := d.cols.filter (fun c => !(cs.contains c))
  ⟨keep, d.rows.map (fun r => keep.map (cellOf d.cols r))⟩

/-- Keep-first deduplication, with an accumulator of rows already seen
(pandas `drop_duplicates` keeps the first occurrence). -/
def dedupRowsAux (seen : List Row) : List Row → List Row
  | [] => []
  | r :: rs => if seen.contains r then dedupRowsAux seen rs else r :: dedupRowsAux (r :: seen) rs

/-- `df.drop_duplicates().reset_index(drop=True)`. -/
def dedupDF (d : DF) : DF := ⟨d.cols, dedupRowsAux [] d.rows⟩

/-- `df.dropna(subset=cs)`: drop rows with a missing value in any of `cs`. -/
def dropnaSubset (d : DF) (cs : List String) : DF :=
  ⟨d.cols, d.rows.filter (fun r => cs.all (fun c => (cellOf d.cols r c).isSome))⟩

/-- `df.dropna()`: drop rows with any missing value. -/
def dropnaAll (d : DF) : DF :=
  ⟨d.cols, d.rows.filter (fun r => r.all (·.isSome))⟩

/-- `df[c] = vals`: replace column `c` in place, or append it as the last
column when new (pandas column assignment). `vals` must have one entry per row. -/
def setCol (d : DF) (c : String) (vals : List Cell) : DF :=
  match idxOf? d.cols c with
  | some i => ⟨d.cols, List.zipWith (fun r v => r.set i v) d.rows vals⟩
  | none => ⟨d.cols ++ [c], List.zipWith (fun r v => r ++ [v]) d.rows vals⟩

/-- `true` iff `p` is a prefix of `s` (character lists). -/
def listPfx : List Char → List Char → Bool
  | [], _ => true
  | _ :: _, [] => false
  | p :: ps, s :: ss => p = s && listPfx ps ss

/-- `s.startswith(p)` on strings. -/
def strPfx (p s : String) : Bool := listPfx p.data s.data

/-- `s.endswith(p)` on strings. -/
def strSfx (s p : String) : Bool := listPfx p.data.reverse s.data.reverse

/-- `s[:-n]` for `n ≤ len s`: drop the last `n` characters. -/
def strDropRight (s : String) (n : Nat) : String :=
  ⟨s.data.take (s.data.length - n)⟩

/-!  ## Ingestion-engine name helpers (`CsvIngestionEngine`)  -/

/-- The ASCII whitespace characters removed by Python `str.strip()`
(Python also strips some Unicode whitespace, which no claim exercises). -/
def pyIsSpace (c : Char) : Bool :=
  c = ' ' || c = '\t' || c = '\n' || c = '\r' || c = '\x0b' || c = '\x0c'

/-- Python `str.strip(chars)`: drop the matching characters from both ends
(parameterized by the membership test `p`). -/
def stripBy (p : Char → Bool) (s : List Char) : List Char :=
  ((s.dropWhile p).reverse.dropWhile p).reverse

/-- Python `str.strip()` on a character list. -/
def pyStrip (s : List Char) : List Char := stripBy pyIsSpace s

/-- Python `str.strip("_")` on a character list. -/
def stripUnderscore (s : List Char) : List Char := stripBy (· = '_') s

/-- Python `str.lower()` (ASCII; no claim exercises non-ASCII case mapping). -/
def pyLower (s : List Char) : List Char := s.map Char.toLower

/-- Python `str.replace(a, b)` for one-character patterns, which replaces
every occurrence and is therefore a character map. -/
def pyReplaceChar (a b : Char) (s : List Char) : List Char :=
  s.map (fun c => if c = a then b else c)

/-- One pass of `str.replace("__", "_")`: replace the non-overlapping
occurrences of `__` left to right. -/
def replacePairs : List Char → List Char
  | '_' :: '_' :: rest => '_' :: replacePairs rest
  | c :: rest => c :: replacePairs rest
  | [] => []

/-- Whether `__` occurs in the string. -/
def hasPair : List Char → Bool
  | '_' :: '_' :: _ => true
  | _ :: rest => hasPair rest
  | [] => false

/-- The `while "__" in normalized: ... replace("__", "_")` loop, with explicit
fuel; each pass with a `__` present strictly shrinks the string, so fuel equal
to the length always reaches the loop's exit condition. -/
def collapseAux : Nat → List Char → List Char
  | 0, s => s
  | n + 1, s => if hasPair s then collapseAux n (replacePairs s) else s

/-- The underscore-collapsing loop of `CsvIngestionEngine._normalize_name`. -/
def collapseUnderscores (s : List Char) : List Char := collapseAux s.length s

/-- `CsvIngestionEngine._normalize_name`: strip whitespace, lower-case,
replace space/hyphen/slash with underscore, collapse repeated underscores,
strip leading and trailing underscores. -/
def normalizeName (s : List Char) : List Char :=
  stripUnderscore (collapseUnderscores
    (pyReplaceChar '/' '_' (pyReplaceChar '-' '_' (pyReplaceChar ' ' '_'
      (pyLower (pyStrip s))))))

/-- `CsvIngestionEngine._derive_table_name` applied to the filename stem:
`stem.lower().replace(" ", "_")` (only spaces are replaced). -/
def deriveTableName (stem : List Char) : List Char :=
  pyReplaceChar ' ' '_' (pyLower stem)

/-- Modelled from the spec: "`name`: derived from filename, lower-cased,
spaces/hyphens/slashes collapsed to single underscores" — lower-case, then
collapse each maximal run of spaces, hyphens and slashes to one underscore.
Used only to compare the spec's wording with `deriveTableName`. -/
def specSep (c : Char) : Bool := c = ' ' || c = '-' || c = '/'

/-- Run-collapsing helper for `specDeriveTableName`; the flag records whether
the previous character was a separator. -/
def collapseSepsAux : Bool → List Char → List Char
  | _, [] => []
  | prevSep, c :: rest =>
    if specSep c then
      if prevSep then collapseSepsAux true rest
      else '_' :: collapseSepsAux true rest
    else c :: collapseSepsAux false rest

/-- Modelled from the spec (see `specSep`): the table name the spec's words
describe. -/
def specDeriveTableName (stem : List Char) : List Char :=
  collapseSepsAux false (pyLower stem)

/-!  ## Encoding detection (`CsvIngestionEngine._detect_encoding`)  -/

/-- The fixed encoding list `DEFAULT_ENCODINGS`. -/
def DEFAULT_ENCODINGS : List String := ["utf-8", "utf-8-sig", "latin1", "cp1252"]

/-- A byte of file content. -/
abbrev Byte := Fin 256

/-- UTF-8 continuation byte (`0x80`–`0xBF`). -/
def isCont (b : Byte) : Bool := 0x80 ≤ b.val && b.val ≤ 0xBF

/-- RFC 3629 UTF-8 validity of a byte sequence (surrogates and overlong
encodings rejected, as Python's `utf-8` codec does). -/
def utf8Valid : List Byte → Bool
  | [] => true
  | b :: rest =>
    if b.val ≤ 0x7F then utf8Valid rest
    else if 0xC2 ≤ b.val && b.val ≤ 0xDF then
      match rest with
      | c1 :: r => isCont c1 && utf8Valid r
      | [] => false
    else if b.val = 0xE0 then
      match rest with
      | c1 :: c2 :: r => (0xA0 ≤ c1.val && c1.val ≤ 0xBF) && isCont c2 && utf8Valid r
      | _ => false
    else if (0xE1 ≤ b.val && b.val ≤ 0xEC) || b.val = 0xEE || b.val = 0xEF then
      match rest with
      | c1 :: c2 :: r => isCont c1 && isCont c2 && utf8Valid r
      | _ => false
    else if b.val = 0xED then
      match rest with
      | c1 :: c2 :: r => (0x80 ≤ c1.val && c1.val ≤ 0x9F) && isCont c2 && utf8Valid r
      | _ => false
    else if b.val = 0xF0 then
      match rest with
      | c1 :: c2 :: c3 :: r =>
        (0x90 ≤ c1.val && c1.val ≤ 0xBF) && isCont c2 && isCont c3 && utf8Valid r
      | _ => false
    else if 0xF1 ≤ b.val && b.val ≤ 0xF3 then
      match rest with
      | c1 :: c2 :: c3 :: r => isCont c1 && isCont c2 && isCont c3 && utf8Valid r
      | _ => false
    else if b.val = 0xF4 then
      match rest with
      | c1 :: c2 :: c3 :: r =>
        (0x80 ≤ c1.val && c1.val ≤ 0x8F) && isCont c2 && isCont c3 && utf8Valid r
      | _ => false
    else false

/-- Strip the UTF-8 byte-order mark, as the `utf-8-sig` codec does. -/
def stripBom : List Byte → List Byte
  | 0xEF :: 0xBB :: 0xBF :: r => r
  | l => l

/-- Whether decoding the probe window with encoding `enc` succeeds:
`utf-8` needs UTF-8 validity, `utf-8-sig` the same after an optional BOM,
`latin1` maps all 256 byte values and never fails, and `cp1252` fails only
on its five unmapped bytes. -/
def decodeOk (enc : String) (bs : List Byte) : Bool :=
  if enc = "utf-8" then utf8Valid bs
  else if enc = "utf-8-sig" then utf8Valid (stripBom bs)
  else if enc = "latin1" then true
  else if enc = "cp1252" then
    bs.all (fun b => !(b.val = 0x81 || b.val = 0x8D || b.val = 0x8F ||
                       b.val = 0x90 || b.val = 0x9D))
  else false

/-- The `for encoding in DEFAULT_ENCODINGS` loop of `_detect_encoding`:
first encoding that decodes the probe, `none` when all fail. -/
def detectEncodingLoop : List String → List Byte → Option String
  | [], _ => none
  | e :: es, bs => if decodeOk e bs then some e else detectEncodingLoop es bs

/-- `CsvIngestionEngine._detect_encoding` on the probe bytes: the loop's
result, defaulting to `utf-8` when every encoding failed. -/
def detectEncoding (bs : List Byte) : String :=
  (detectEncodingLoop DEFAULT_ENCODINGS bs).getD "utf-8"

/-!  ## Schema profiler (`SchemaProfiler`)  -/

/-- All ordered pairs `(l[i], l[j])` with `i < j`, matching the nested
`for i, col_a in enumerate(...) / for col_b in limited_columns[i+1:]` loops. -/
def pairsOf : List String → List (String × String)
  | [] => []
  | x :: xs => xs.map (fun y => (x, y)) ++ pairsOf xs

/-- `SchemaProfiler._find_candidate_keys`: single columns that are unique and
fully non-null, in column order; otherwise up to 3 two-column pairs from the
first 8 columns whose null-free projection is non-empty and duplicate-free.
The early `return` after the third pair equals taking the first 3 pairs. -/
def findCandidateKeys (d : DF) : List (List String) :=
  let singles := (d.cols.filter
    (fun c => noDupB (getCol d c) && allSome (getCol d c))).map (fun c => [c])
  if !singles.isEmpty then singles
  else
    let limited := d.cols.take 8
    let good := (pairsOf limited).filter (fun p =>
      let sub := dropnaAll (selectCols d [p.1, p.2])
      !sub.rows.isEmpty && noDupB sub.rows)
    (good.map (fun p => [p.1, p.2])).take 3

/-- `SchemaProfiler._find_probable_foreign_keys` (recorded in the profile but
never read by the normalization engine). -/
def findProbableForeignKeys (d : DF) : List String :=
  d.cols.filter (fun c => strSfx c "_id" && (getCol d c).any (·.isSome))

/-!  ## Normalization engine (`NormalizationEngine`)  -/

/-- `ForeignKeySpec`. -/
structure ForeignKeySpec where
  column : String
  ref_table : String
  ref_column : String
deriving DecidableEq, Repr

/-- `NormalizedTable`. -/
structure NTable where
  name : String
  df : DF
  primary_key : List String
  foreign_keys : List ForeignKeySpec
  source_tables : List String
deriving DecidableEq, Repr

/-- A loaded source table: derived name plus dataframe (the dialect metadata
of `CsvTable` plays no role in normalization). -/
structure SrcTable where
  name : String
  df : DF
deriving DecidableEq, Repr

/-- Ranking key of `_ensure_primary_key`: prefer a group containing a column
literally named `id`, then one containing `{table}_id`, then fewer columns. -/
def rankKey (tname : String) (cols : List String) : Nat × Nat × Nat :=
  (if cols.contains "id" then 0 else 1,
   if cols.contains (tname ++ "_id") then 0 else 1,
   cols.length)

/-- Strict lexicographic comparison of ranking keys. -/
def keyLt (a b : Nat × Nat × Nat) : Bool :=
  a.1 < b.1 || (a.1 = b.1 && (a.2.1 < b.2.1 || (a.2.1 = b.2.1 && a.2.2 < b.2.2)))

/-- Stable insertion: place `x` after every earlier element whose key is not
strictly greater, as Python's stable `sorted` does. -/
def insStable (key : List String → Nat × Nat × Nat) (x : List String) :
    List (List String) → List (List String)
  | [] => [x]
  | y :: ys => if keyLt (key x) (key y) then x :: y :: ys else y :: insStable key x ys

/-- Stable sort by ranking key (Python `sorted(candidates, key=...)`). -/
def sortCandidates (key : List String → Nat × Nat × Nat) :
    List (List String) → List (List String) :=
  List.foldl (fun acc x => insStable key x acc) []

/-- The 1-based integer sequence `pd.Series(range(1, len(df) + 1))`. -/
def surrogateSeries (n : Nat) : List Cell :=
  (List.range n).map (fun i => some (Val.int (Int.ofNat (i + 1))))

/-- Null backfill of `_ensure_primary_key`: replace the `n`-th missing entry
of column index `i` (1-based among the missing ones) with the placeholder
`{table}_{column}_missing_{n}`. -/
def backfillRows (tname c : String) (i : Nat) : Nat → List Row → List Row
  | _, [] => []
  | n, r :: rs =>
    if (r.getD i none).isNone then
      r.set i (some (Val.str (tname ++ "_" ++ c ++ "_missing_" ++ Nat.repr n)))
        :: backfillRows tname c i (n + 1) rs
    else r :: backfillRows tname c i n rs

/-- Backfill column `c` of `d` (the `astype("object")` dtype change has no
counterpart in this value-level model). -/
def backfillCol (tname c : String) (d : DF) : DF :=
  match idxOf? d.cols c with
  | none => d
  | some i => ⟨d.cols, backfillRows tname c i 1 d.rows⟩

/-- `NormalizationEngine._ensure_primary_key`. -/
def ensurePrimaryKey (tname : String) (d : DF) (candidates : List (List String)) :
    List String × DF :=
  if candidates.isEmpty then
    let s0 := tname ++ "_id"
    let s := if d.cols.contains s0 && !noDupB (getCol d s0)
             then tname ++ "_surrogate_id" else s0
    ([s], setCol d s (surrogateSeries d.rows.length))
  else
    let ranked := sortCandidates (rankKey tname) candidates
    let chosen := ranked.headD []
    let missing := chosen.filter (fun c => !(d.cols.contains c))
    if !missing.isEmpty then
      let s := tname ++ "_id"
      ([s], setCol d s (surrogateSeries d.rows.length))
    else
      (chosen, chosen.foldl
        (fun df c => if (getCol df c).any (·.isNone) then backfillCol tname c df else df) d)

/-- Insert or replace the binding of `k` in an association list, keeping its
position when present (Python dict assignment). -/
def assocSet {τ : Type} (l : List (String × τ)) (k : String) (v : τ) :
    List (String × τ) :=
  match l with
  | [] => [(k, v)]
  | (k', v') :: rest => if k' = k then (k, v) :: rest else (k', v') :: assocSet rest k v

/-- First binding of `k` in an association list (Python dict lookup). -/
def assocFind {τ : Type} (l : List (String × τ)) (k : String) : Option τ :=
  match l with
  | [] => none
  | (k', v) :: rest => if k' = k then some v else assocFind rest k

/-- The column loop of `NormalizationEngine._extract_dimension_tables`,
iterating over the snapshot `list(df.columns)` while `df` itself shrinks. -/
def extractDimsGo (tname : String) (pk : List String) :
    List String → List (String × NTable) → DF → List (String × NTable) × DF
  | [], dims, df => (dims, df)
  | c :: cs, dims, df =>
    if pk.contains c then extractDimsGo tname pk cs dims df
    else if !strSfx c "_id" then extractDimsGo tname pk cs dims df
    else
      let pfx := strDropRight c 3
      let related := df.cols.filter (fun x => strPfx (pfx ++ "_") x)
      let nonId := related.filter (fun x => x ≠ c)
      if nonId.isEmpty then extractDimsGo tname pk cs dims df
      else
        let dimName := pfx ++ "_dimension"
        let dimDf := dropnaSubset (dedupDF (selectCols df (c :: nonId))) [c]
        if dimDf.rows.isEmpty then extractDimsGo tname pk cs dims df
        else
          extractDimsGo tname pk cs
            (assocSet dims dimName ⟨dimName, dimDf, [c], [], [tname]⟩)
            (dropCols df nonId)

/-- `NormalizationEngine._extract_dimension_tables`. -/
def extractDims (tname : String) (d : DF) (pk : List String) :
    List (String × NTable) × DF :=
  extractDimsGo tname pk d.cols [] d

/-- Outer-aligned `pd.concat([d1, d2], ignore_index=True)`: union of the
column names in order of appearance, rows aligned by name with missing
columns filled with `NA`. -/
def concatOuter (d1 d2 : DF) : DF :=
  let cols := d1.cols ++ d2.cols.filter (fun c => !(d1.cols.contains c))
  ⟨cols, d1.rows.map (fun r => cols.map (cellOf d1.cols r)) ++
         d2.rows.map (fun r => cols.map (cellOf d2.cols r))⟩

/-- The dimension-merge step of `NormalizationEngine.normalize`: merge one
freshly extracted dimension into the run-scoped dimension registry. -/
def mergeDim (acc : List (String × NTable)) (e : String × NTable) :
    List (String × NTable) :=
  match assocFind acc e.1 with
  | some existing =>
    assocSet acc e.1
      { existing with
        df := dedupDF (concatOuter existing.df e.2.df),
        source_tables := existing.source_tables ++ e.2.source_tables }
  | none => acc ++ [e]

/-- Merge a table's extracted dimensions into the registry, in extraction
order. -/
def mergeDims (acc : List (String × NTable)) (ds : List (String × NTable)) :
    List (String × NTable) :=
  ds.foldl mergeDim acc

/-- One iteration of the `for table_name, csv_table in self.tables.items()`
loop of `NormalizationEngine.normalize`. -/
def normalizeStep (st : List (String × NTable) × List NTable) (s : SrcTable) :
    List (String × NTable) × List NTable :=
  let candidates := findCandidateKeys s.df
  let pkdf := ensurePrimaryKey s.name s.df candidates
  let dimsFact := extractDims s.name pkdf.2 pkdf.1
  (mergeDims st.1 dimsFact.1,
   st.2 ++ [⟨s.name, dimsFact.2, pkdf.1, [], [s.name]⟩])

/-- The per-table loop of `NormalizationEngine.normalize`: the accumulated
dimension registry and the fact tables, before foreign keys are registered. -/
def normalizeLoop (srcs : List SrcTable) : List (String × NTable) × List NTable :=
  srcs.foldl normalizeStep ([], [])

/-- `{**self.dimension_tables, **normalized}`: dimension tables first, fact
tables merged over them with dict update semantics. -/
def allTablesOf (dims : List (String × NTable)) (facts : List NTable) : List NTable :=
  (facts.foldl (fun acc f => assocSet acc f.name f) dims).map (·.2)

/-- Append `v` to the list bound to `k`, binding `k` at the end when absent
(`registry.setdefault(k, []).append(v)`). -/
def assocAppend (l : List (String × List String)) (k v : String) :
    List (String × List String) :=
  match assocFind l k with
  | some vs => assocSet l k (vs ++ [v])
  | none => l ++ [(k, [v])]

/-- The primary-key registry of `_register_foreign_keys`: each primary-key
column name mapped to the tables declaring it, in table order. -/
def buildRegistry (ts : List NTable) : List (String × List String) :=
  ts.foldl (fun reg t => t.primary_key.foldl (fun reg c => assocAppend reg c t.name) reg) []

/-- The per-table column loop of `_register_foreign_keys`. -/
def registerFKsOf (reg : List (String × List String)) (t : NTable) :
    List ForeignKeySpec :=
  t.df.cols.foldl (fun fks c =>
    if t.primary_key.contains c then fks
    else if !strSfx c "_id" then fks
    else
      match ((assocFind reg c).getD []).filter (fun n => n ≠ t.name) with
      | [] => fks
      | target :: _ =>
        if fks.any (fun fk => fk.column = c && fk.ref_table = target) then fks
        else fks ++ [⟨c, target, c⟩]) t.foreign_keys

/-- `NormalizationEngine._register_foreign_keys`. -/
def registerForeignKeys (ts : List NTable) : List NTable :=
  let reg := buildRegistry ts
  ts.map (fun t => { t with foreign_keys := registerFKsOf reg t })

/-- First table with the given name (`tables.get(name)`; table names are dict
keys, hence unique, in every state the code reaches). -/
def lookupTable (ts : List NTable) (n : String) : Option NTable :=
  ts.find? (fun t => t.name = n)

/-- Whether a cell passes the orphan filter
`df[fk.column].isna() | df[fk.column].isin(valid_values)`. -/
def fkKeep (valid : List Val) (cell : Cell) : Bool :=
  match cell with
  | none => true
  | some v => valid.contains v

/-- The foreign-key loop of `_enforce_referential_integrity` for one table:
filter `df` by each registered foreign key against the referenced table's
current key set.  A missing referenced table is skipped (`tables.get`);
a missing column raises `KeyError` in pandas, modelled as an error. -/
def applyFKs (ts : List NTable) (fks : List ForeignKeySpec) (df : DF) :
    Except String DF :=
  match fks with
  | [] => .ok df
  | fk :: rest =>
    match lookupTable ts fk.ref_table with
    | none => applyFKs ts rest df
    | some rt =>
      match idxOf? rt.df.cols fk.ref_column with
      | none => .error ("KeyError: " ++ fk.ref_column)
      | some _ =>
        let valid := (getCol rt.df fk.ref_column).filterMap id
        match idxOf? df.cols fk.column with
        | none => .error ("KeyError: " ++ fk.column)
        | some _ =>
          applyFKs ts rest
            ⟨df.cols, df.rows.filter (fun r => fkKeep valid (cellOf df.cols r fk.column))⟩

/-- Process table `i` of the state: replace its dataframe by the filtered one
(`table.dataframe = df.reset_index(drop=True)`). -/
def enforceTable (ts : List NTable) (i : Nat) : Except String (List NTable) :=
  match ts[i]? with
  | none => .ok ts
  | some t => (applyFKs ts t.foreign_keys t.df).map (fun df => ts.set i { t with df := df })

/-- The `for table in tables.values()` loop of
`_enforce_referential_integrity`, processing tables in dict order while
later lookups see the already-filtered state. -/
def enforceGo : List Nat → List NTable → Except String (List NTable)
  | [], ts => .ok ts
  | i :: is, ts =>
    match enforceTable ts i with
    | .ok ts' => enforceGo is ts'
    | .error e => .error e

/-- `NormalizationEngine._enforce_referential_integrity`. -/
def enforceReferentialIntegrity (ts : List NTable) : Except String (List NTable) :=
  enforceGo (List.range ts.length) ts

/-- `NormalizationEngine.normalize`. -/
def normalizeTables (srcs : List SrcTable) : Except String (List NTable) :=
  let st := normalizeLoop srcs
  enforceReferentialIntegrity (registerForeignKeys (allTablesOf st.1 st.2))

/-!  ## Pipeline entry point (`build_normalized_database`)  -/

/-- Errors surfaced by `build_normalized_database` (materialization is out of
scope of the claims and not modelled past normalization). -/
inductive BuildError where
  | emptySourceSet
  | pipelineError (msg : String)
deriving DecidableEq, Repr

/-- `build_normalized_database`, taking the ingestion result as input: raise
`ValueError` (`EmptySourceSet`) when no CSV table was loaded, otherwise
profile and normalize. -/
def buildNormalizedDatabase (tables : List SrcTable) : Except BuildError (List NTable) :=
  if tables.isEmpty then .error .emptySourceSet
  else
    match normalizeTables tables with
    | .ok ts => .ok ts
    | .error e => .error (.pipelineError e)

/-!  ## Derived notions used by the theorem statements  -/

/-- The tables of a successful pipeline run (empty on error). -/
def okTables : Except String (List NTable) → List NTable
  | .ok ts => ts
  | .error _ => []

/-- The table obtained by merging a newly extracted dimension `b` into an
existing dimension `a` (the `pd.concat` + `drop_duplicates` branch of the
dimension merge in `NormalizationEngine.normalize`). -/
def mergedNT (a b : NTable) : NTable :=
  { a with
    df := dedupDF (concatOuter a.df b.df),
    source_tables := a.source_tables ++ b.source_tables }

/-- The dimension tables extracted from one source table by an iteration of
the per-table loop of `NormalizationEngine.normalize`. -/
def tableDims (s : SrcTable) : List (String × NTable) :=
  (extractDims s.name (ensurePrimaryKey s.name s.df (findCandidateKeys s.df)).2
    (ensurePrimaryKey s.name s.df (findCandidateKeys s.df)).1).1

/-- A dataframe row as a record: the set of (column name, cell) pairs. -/
def recordOf (cols : List String) (r : Row) : Finset (String × Cell) :=
  (cols.zip r).toFinset

/-- The row-record set of a dataframe: its rows as records, ignoring row
order and column order. -/
def recordSet (d : DF) : Finset (Finset (String × Cell)) :=
  (d.rows.map (recordOf d.cols)).toFinset

/-- The row-record set of the dimension table named `n` accumulated by the
per-table loop of `normalize` (before foreign-key registration and
referential-integrity enforcement), if that dimension exists. -/
def loopDimRecords (srcs : List SrcTable) (n : String) :
    Option (Finset (Finset (String × Cell))) :=
  (assocFind (normalizeLoop srcs).1 n).map (fun t => recordSet t.df)

/-- The row-record set of the table named `n` in the final output of
`normalize`, if the run succeeds and the table exists. -/
def finalRecords (srcs : List SrcTable) (n : String) :
    Option (Finset (Finset (String × Cell))) :=
  match normalizeTables srcs with
  | .ok ts => (lookupTable ts n).map (fun t => recordSet t.df)
  | .error _ => none

/-- Well-formedness of a dataframe: every row has one cell per column
(an invariant of every pandas dataframe). -/
def wfDF (d : DF) : Prop := ∀ r ∈ d.rows, r.length = d.cols.length

/-- `true` iff no two consecutive characters are both spaces. -/
def noTwoSpaces : List Char → Bool
  | a :: b :: r => !(a = ' ' && b = ' ') && noTwoSpaces (b :: r)
  | _ => true

/-!  ## Theorems  -/

/-- C1, counterexample: on the source table `t(x, category_id, category_name)`
with rows `(1, 10, a)` and `(2, 10, b)`, normalization succeeds and produces
the dimension table `category_dimension` whose primary-key column
`category_id` holds the duplicate values `10, 10` — so the primary-key
uniqueness invariant fails for a `NormalizedTable` produced by `normalize()`. -/
theorem c1_counterexample :
    ∃ t ∈ okTables (normalizeTables [⟨"t", ⟨["x", "category_id", "category_name"],
        [[some (Val.int 1), some (Val.int 10), some (Val.str "a")],
         [some (Val.int 2), some (Val.int 10), some (Val.str "b")]]⟩⟩]),
      t.name = "category_dimension" ∧ t.primary_key = ["category_id"] ∧
      noDupB (getCol t.df "category_id") = false := by
  decide

/-- C2, counterexample: with source tables `orders(order_id, customer_id)`,
`customers(customer_id, region_id)`, `regions(region_id)` where the single
customer references a missing region, the single enforcement pass filters
`customers` after `orders` was checked against it, leaving the non-null value
`5` in `orders.customer_id` with no matching `customers.customer_id` row. -/
theorem c2_counterexample :
    ∃ t ∈ okTables (normalizeTables
        [⟨"orders", ⟨["order_id", "customer_id"], [[some (Val.int 1), some (Val.int 5)]]⟩⟩,
         ⟨"customers", ⟨["customer_id", "region_id"], [[some (Val.int 5), some (Val.int 99)]]⟩⟩,
         ⟨"regions", ⟨["region_id"], [[some (Val.int 1)]]⟩⟩]),
      t.name = "orders" ∧ ∃ fk ∈ t.foreign_keys, fk.ref_table = "customers" ∧
        some (Val.int 5) ∈ getCol t.df fk.column ∧
        ∀ rt ∈ okTables (normalizeTables
          [⟨"orders", ⟨["order_id", "customer_id"], [[some (Val.int 1), some (Val.int 5)]]⟩⟩,
           ⟨"customers", ⟨["customer_id", "region_id"], [[some (Val.int 5), some (Val.int 99)]]⟩⟩,
           ⟨"regions", ⟨["region_id"], [[some (Val.int 1)]]⟩⟩]),
          rt.name = "customers" → ¬ some (Val.int 5) ∈ getCol rt.df fk.ref_column := by
  decide

/-- C3, counterexample: the zero-row source table `t(a, b)` normalizes
without error to an empty `NormalizedTable`, but its primary key is the
existing column `a` (on an empty dataframe every column is unique and
non-null, hence a candidate key), not a synthesized surrogate key column. -/
theorem c3_counterexample :
    ∃ t ∈ okTables (normalizeTables [⟨"t", ⟨["a", "b"], []⟩⟩]),
      t.df.rows = [] ∧ t.primary_key = ["a"] ∧
      t.primary_key ≠ ["t_id"] ∧ t.primary_key ≠ ["t_surrogate_id"] := by
  decide

/-- C4, counterexample: for the stem `My-Data` the code derives `my-data`
(only spaces are replaced), while the spec's rule (hyphens collapsed to
underscores as well) gives `my_data`. -/
theorem c4_counterexample :
    deriveTableName "My-Data".data ≠ specDeriveTableName "My-Data".data := by
  decide

/-- C5, counterexample: the 5-row table `t(a, b)` with rows
`(1,1) (1,2) (2,1) (2,2) (3,1)` has no unique single column, yet the
injective pair `(a, b)` is a candidate key, so no `{table}_id` surrogate
column is synthesized at all: the primary key is `[a, b]`. -/
theorem c5_counterexample :
    noDupB (getCol ⟨["a", "b"],
        [[some (Val.int 1), some (Val.int 1)], [some (Val.int 1), some (Val.int 2)],
         [some (Val.int 2), some (Val.int 1)], [some (Val.int 2), some (Val.int 2)],
         [some (Val.int 3), some (Val.int 1)]]⟩ "a") = false ∧
    noDupB (getCol ⟨["a", "b"],
        [[some (Val.int 1), some (Val.int 1)], [some (Val.int 1), some (Val.int 2)],
         [some (Val.int 2), some (Val.int 1)], [some (Val.int 2), some (Val.int 2)],
         [some (Val.int 3), some (Val.int 1)]]⟩ "b") = false ∧
    ∃ t ∈ okTables (normalizeTables [⟨"t", ⟨["a", "b"],
        [[some (Val.int 1), some (Val.int 1)], [some (Val.int 1), some (Val.int 2)],
         [some (Val.int 2), some (Val.int 1)], [some (Val.int 2), some (Val.int 2)],
         [some (Val.int 3), some (Val.int 1)]]⟩⟩]),
      t.primary_key = ["a", "b"] ∧ t.df.cols.contains "t_id" = false := by
  decide

/-- C6, counterexample: the source tables
`a(a_key, c_x_y_id, c_x_y_w, c_id, c_x_id)` and
`b(b_key, c_x_id, c_x_y_id, c_x_y_w, c_id)` declare the same `c_` dimension
attribute group (`c_id` plus the `c_`-prefixed columns), yet the final row
set of the merged dimension `c_dimension` differs between processing
a-then-b and b-then-a: enforcement filters `c_dimension` against
`c_x_dimension` before that table loses a row in one order and after in the
other. -/
theorem c6_counterexample :
    finalRecords
        [⟨"a", ⟨["a_key", "c_x_y_id", "c_x_y_w", "c_id", "c_x_id"],
          [[some (Val.int 1), some (Val.int 100), some (Val.str "w"),
            some (Val.int 7), some (Val.int 50)]]⟩⟩,
         ⟨"b", ⟨["b_key", "c_x_id", "c_x_y_id", "c_x_y_w", "c_id"],
          [[some (Val.int 1), some (Val.int 50), some (Val.int 100),
            some (Val.str "w"), some (Val.int 7)],
           [some (Val.int 2), some (Val.int 51), some (Val.int 999),
            some (Val.str "w"), some (Val.int 5)]]⟩⟩] "c_dimension" ≠
    finalRecords
        [⟨"b", ⟨["b_key", "c_x_id", "c_x_y_id", "c_x_y_w", "c_id"],
          [[some (Val.int 1), some (Val.int 50), some (Val.int 100),
            some (Val.str "w"), some (Val.int 7)],
           [some (Val.int 2), some (Val.int 51), some (Val.int 999),
            some (Val.str "w"), some (Val.int 5)]]⟩⟩,
         ⟨"a", ⟨["a_key", "c_x_y_id", "c_x_y_w", "c_id", "c_x_id"],
          [[some (Val.int 1), some (Val.int 100), some (Val.str "w"),
            some (Val.int 7), some (Val.int 50)]]⟩⟩] "c_dimension" := by
  decide

/-- C7, counterexample: column-name canonicalization is not idempotent on
every raw name: `_<TAB>a_` normalizes to `<TAB>a` (the underscore strip
exposes a tab at the edge), and normalizing again strips that tab, giving
`a`. -/
theorem c7_counterexample :
    normalizeName (normalizeName "_\ta_".data) ≠ normalizeName "_\ta_".data := by
  decide

/-- C8, counterexample: the single table `t(a, id)` with rows `(1,2)` and
`(2,1)` has a unique non-null first column `a` and no `_id`-suffixed
columns at all, but the candidate ranking prefers the column literally named
`id`, so the primary key is `[id]`, not the first column. -/
theorem c8_counterexample :
    noDupB (getCol ⟨["a", "id"],
        [[some (Val.int 1), some (Val.int 2)], [some (Val.int 2), some (Val.int 1)]]⟩ "a") = true ∧
    allSome (getCol ⟨["a", "id"],
        [[some (Val.int 1), some (Val.int 2)], [some (Val.int 2), some (Val.int 1)]]⟩ "a") = true ∧
    (∀ c ∈ (["a", "id"] : List String), strSfx c "_id" = false) ∧
    ∃ t ∈ okTables (normalizeTables [⟨"t", ⟨["a", "id"],
        [[some (Val.int 1), some (Val.int 2)], [some (Val.int 2), some (Val.int 1)]]⟩⟩]),
      t.primary_key = ["id"] ∧ t.primary_key ≠ ["a"] := by
  decide

/-- C9: `build_normalized_database` raises the empty-source-set error
(`ValueError`, the spec's `EmptySourceSet`) exactly when ingestion loaded
zero CSV tables; with at least one table this error is never produced. -/
theorem c9_empty_source_set (tables : List SrcTable) :
    buildNormalizedDatabase tables = .error .emptySourceSet ↔ tables = [] := by
  constructor
  · intro h
    cases tables with
    | nil => rfl
    | cons t ts =>
      simp only [buildNormalizedDatabase, List.isEmpty_cons, if_neg] at h
      cases hn : normalizeTables (t :: ts) with
      | ok res => rw [hn] at h; exact absurd h (by simp)
      | error e => rw [hn] at h; exact absurd h (by simp)
  · intro h
    subst h
    rfl

/-- C9, witness: on the empty table set the error is raised, and on a
concrete one-table set it is not. -/
theorem c9_empty_source_set_witness :
    buildNormalizedDatabase [] = .error .emptySourceSet ∧
    buildNormalizedDatabase [⟨"t", ⟨["a"], [[some (Val.int 1)]]⟩⟩] ≠
      .error .emptySourceSet := by
  constructor
  · exact (c9_empty_source_set []).mpr rfl
  · intro h
    exact absurd ((c9_empty_source_set _).mp h) (by simp)

/-- C10: encoding detection always returns one of `utf-8`, `utf-8-sig`,
`latin1`: decoding with `latin1` never fails, so the loop never reaches
`cp1252` and never falls through to the default-to-utf-8 recovery branch. -/
theorem c10_encoding_detection (bs : List Byte) :
    detectEncodingLoop DEFAULT_ENCODINGS bs ≠ none ∧
    detectEncodingLoop DEFAULT_ENCODINGS bs ≠ some "cp1252" ∧
    (detectEncoding bs = "utf-8" ∨ detectEncoding bs = "utf-8-sig" ∨
     detectEncoding bs = "latin1") := by
  have h : detectEncodingLoop DEFAULT_ENCODINGS bs = some "utf-8" ∨
      detectEncodingLoop DEFAULT_ENCODINGS bs = some "utf-8-sig" ∨
      detectEncodingLoop DEFAULT_ENCODINGS bs = some "latin1" := by
    simp only [DEFAULT_ENCODINGS, detectEncodingLoop, decodeOk]
    by_cases h1 : utf8Valid bs <;> by_cases h2 : utf8Valid (stripBom bs) <;>
      simp [h1, h2]
  rcases h with h | h | h <;>
    refine ⟨by simp [h], by simp [h], ?_⟩ <;> simp [detectEncoding, h]

/-!  ### Basic list and dataframe lemmas  -/

theorem contains_iff_mem {l : List String} {a : String} : l.contains a = true ↔ a ∈ l :=
  List.elem_iff

theorem noDupB_iff_nodup {α : Type} [DecidableEq α] {l : List α} :
    noDupB l = true ↔ l.Nodup := by
  induction l with
  | nil => simp [noDupB]
  | cons x xs ih =>
    rw [noDupB, Bool.and_eq_true, List.nodup_cons, ih, Bool.not_eq_true']
    have hxc : xs.contains x = false ↔ x ∉ xs := by
      rw [← Bool.not_eq_true]
      exact not_congr List.elem_iff
    rw [hxc]

theorem allSome_iff {l : List Cell} : allSome l = true ↔ ∀ c ∈ l, c.isSome = true := by
  simp [allSome, List.all_eq_true]

theorem any_isNone_eq_false_of_allSome {l : List Cell} (h : allSome l = true) :
    (l.any (·.isNone)) = false := by
  rw [List.any_eq_false]
  intro c hc
  have := allSome_iff.mp h c hc
  simp [Option.isNone] at this ⊢
  cases c with
  | none => simp at this
  | some v => simp

theorem idxOf?_lt_length {l : List String} {c : String} {i : Nat}
    (h : idxOf? l c = some i) : i < l.length := by
  induction l generalizing i with
  | nil => simp [idxOf?] at h
  | cons x xs ih =>
    rw [idxOf?] at h
    by_cases hx : x = c
    · rw [if_pos hx] at h
      cases h
      simp
    · rw [if_neg hx, Option.map_eq_some'] at h
      obtain ⟨j, hj, rfl⟩ := h
      have := ih hj
      simp only [List.length_cons]
      omega

theorem idxOf?_eq_none_iff {l : List String} {c : String} :
    idxOf? l c = none ↔ c ∉ l := by
  induction l with
  | nil => simp [idxOf?]
  | cons x xs ih =>
    by_cases hx : x = c
    · simp [idxOf?, hx]
    · rw [idxOf?, if_neg hx, Option.map_eq_none', ih]
      constructor
      · intro h hm
        rcases List.mem_cons.mp hm with h2 | h2
        · exact hx h2.symm
        · exact h h2
      · intro h hm
        exact h (List.mem_cons_of_mem _ hm)

theorem idxOf?_append_self {l : List String} {c : String} (h : c ∉ l) :
    idxOf? (l ++ [c]) c = some l.length := by
  induction l with
  | nil => simp [idxOf?]
  | cons x xs ih =>
    have hx : x ≠ c := fun he => h (he ▸ List.mem_cons_self x xs)
    have hc : c ∉ xs := fun hm => h (List.mem_cons_of_mem _ hm)
    simp [idxOf?, hx, ih hc]

theorem surrogateSeries_length (n : Nat) : (surrogateSeries n).length = n := by
  rw [surrogateSeries, List.length_map, List.length_range]

theorem noDupB_surrogateSeries (n : Nat) : noDupB (surrogateSeries n) = true := by
  rw [noDupB_iff_nodup, surrogateSeries]
  refine List.Nodup.map (fun a b hab => ?_) (List.nodup_range n)
  simp only [Option.some.injEq, Val.int.injEq, Int.ofNat.injEq] at hab
  omega

theorem allSome_surrogateSeries (n : Nat) : allSome (surrogateSeries n) = true := by
  simp [allSome, surrogateSeries, List.all_eq_true]

theorem map_zipWith_append_cellOf (cols : List String) (c : String)
    (rows : List Row) (vals : List Cell) (hc : c ∉ cols)
    (hwf : ∀ r ∈ rows, r.length = cols.length) (hlen : vals.length = rows.length) :
    (List.zipWith (fun r v => r ++ [v]) rows vals).map
      (fun r => cellOf (cols ++ [c]) r c) = vals := by
  induction rows generalizing vals with
  | nil =>
    cases vals with
    | nil => simp
    | cons v vs => simp at hlen
  | cons r rs ih =>
    cases vals with
    | nil => simp at hlen
    | cons v vs =>
      simp only [List.zipWith_cons_cons, List.map_cons, List.cons.injEq]
      constructor
      · rw [cellOf, idxOf?_append_self hc]
        have hr : r.length = cols.length := hwf r (List.mem_cons_self r rs)
        show (r ++ [v]).getD cols.length none = v
        rw [List.getD_eq_getElem?_getD, ← hr, List.getElem?_concat_length]
        rfl
      · exact ih vs (fun r2 h2 => hwf r2 (List.mem_cons_of_mem _ h2)) (by simpa using hlen)

theorem map_zipWith_set_cellOf (cols : List String) (c : String) (i : Nat)
    (rows : List Row) (vals : List Cell) (hi : idxOf? cols c = some i)
    (hwf : ∀ r ∈ rows, r.length = cols.length) (hlen : vals.length = rows.length) :
    (List.zipWith (fun r v => r.set i v) rows vals).map
      (fun r => cellOf cols r c) = vals := by
  induction rows generalizing vals with
  | nil =>
    cases vals with
    | nil => simp
    | cons v vs => simp at hlen
  | cons r rs ih =>
    cases vals with
    | nil => simp at hlen
    | cons v vs =>
      simp only [List.zipWith_cons_cons, List.map_cons, List.cons.injEq]
      constructor
      · rw [cellOf, hi]
        have hr : r.length = cols.length := hwf r (List.mem_cons_self r rs)
        have hilt : i < r.length := hr ▸ idxOf?_lt_length hi
        show (r.set i v).getD i none = v
        rw [List.getD_eq_getElem?_getD, List.getElem?_set_self hilt]
        rfl
      · exact ih vs (fun r2 h2 => hwf r2 (List.mem_cons_of_mem _ h2)) (by simpa using hlen)

theorem getCol_setCol (d : DF) (c : String) (vals : List Cell) (hwf : wfDF d)
    (hlen : vals.length = d.rows.length) :
    getCol (setCol d c vals) c = vals := by
  rw [setCol]
  cases hidx : idxOf? d.cols c with
  | none =>
    have hc : c ∉ d.cols := idxOf?_eq_none_iff.mp hidx
    exact map_zipWith_append_cellOf d.cols c d.rows vals hc hwf hlen
  | some i =>
    exact map_zipWith_set_cellOf d.cols c i d.rows vals hidx hwf hlen

/-!  ### Candidate-key ranking lemmas  -/

theorem keyLt_irrefl (k : Nat × Nat × Nat) : keyLt k k = false := by
  simp [keyLt]

theorem mem_insStable {key : List String → Nat × Nat × Nat} {x y : List String}
    {l : List (List String)} : y ∈ insStable key x l ↔ y = x ∨ y ∈ l := by
  induction l with
  | nil => simp [insStable]
  | cons z zs ih =>
    rw [insStable]
    by_cases h : keyLt (key x) (key z)
    · simp [h]
    · rw [if_neg h]
      simp only [List.mem_cons, ih]
      tauto

theorem length_insStable {key : List String → Nat × Nat × Nat} {x : List String}
    {l : List (List String)} : (insStable key x l).length = l.length + 1 := by
  induction l with
  | nil => simp [insStable]
  | cons z zs ih =>
    rw [insStable]
    by_cases h : keyLt (key x) (key z)
    · simp [h]
    · rw [if_neg h]
      simp [ih]

theorem mem_sortCandidates_foldl {key : List String → Nat × Nat × Nat}
    {l acc : List (List String)} {y : List String} :
    y ∈ List.foldl (fun a x => insStable key x a) acc l ↔ y ∈ acc ∨ y ∈ l := by
  induction l generalizing acc with
  | nil => simp
  | cons z zs ih =>
    rw [List.foldl_cons, ih, mem_insStable]
    simp only [List.mem_cons]
    tauto

theorem mem_sortCandidates {key : List String → Nat × Nat × Nat}
    {l : List (List String)} {y : List String} :
    y ∈ sortCandidates key l ↔ y ∈ l := by
  rw [sortCandidates, mem_sortCandidates_foldl]
  simp

theorem length_sortCandidates_foldl {key : List String → Nat × Nat × Nat}
    {l acc : List (List String)} :
    (List.foldl (fun a x => insStable key x a) acc l).length = acc.length + l.length := by
  induction l generalizing acc with
  | nil => simp
  | cons z zs ih =>
    rw [List.foldl_cons, ih, length_insStable]
    simp
    omega

theorem length_sortCandidates {key : List String → Nat × Nat × Nat}
    {l : List (List String)} : (sortCandidates key l).length = l.length := by
  rw [sortCandidates, length_sortCandidates_foldl]
  simp

theorem insStable_const {key : List String → Nat × Nat × Nat} {k : Nat × Nat × Nat}
    {x : List String} {l : List (List String)} (hx : key x = k)
    (hl : ∀ y ∈ l, key y = k) : insStable key x l = l ++ [x] := by
  induction l with
  | nil => simp [insStable]
  | cons z zs ih =>
    rw [insStable, hx, hl z (List.mem_cons_self z zs), keyLt_irrefl, if_neg (by simp)]
    rw [ih (fun y hy => hl y (List.mem_cons_of_mem _ hy))]
    simp

theorem foldl_insStable_const {key : List String → Nat × Nat × Nat}
    {k : Nat × Nat × Nat} :
    ∀ (l acc : List (List String)), (∀ y ∈ l, key y = k) → (∀ y ∈ acc, key y = k) →
      List.foldl (fun a x => insStable key x a) acc l = acc ++ l := by
  intro l
  induction l with
  | nil =>
    intro acc _ _
    simp
  | cons z zs ih =>
    intro acc hl hacc
    have hz : key z = k := hl z (List.mem_cons_self z zs)
    have hacc2 : ∀ y ∈ acc ++ [z], key y = k := by
      intro y hy
      rcases List.mem_append.mp hy with h | h
      · exact hacc y h
      · simp only [List.mem_singleton] at h
        subst h
        exact hz
    rw [List.foldl_cons, insStable_const hz hacc,
      ih (acc ++ [z]) (fun y hy => hl y (List.mem_cons_of_mem _ hy)) hacc2]
    simp

theorem sortCandidates_const {key : List String → Nat × Nat × Nat}
    {k : Nat × Nat × Nat} {l : List (List String)} (hl : ∀ y ∈ l, key y = k) :
    sortCandidates key l = l := by
  rw [sortCandidates]
  simpa using foldl_insStable_const l [] hl (by simp)

/-- Members of the candidate-key list are singleton unique non-null columns
or two-column pairs. -/
theorem mem_findCandidateKeys_single {d : DF} {c : String}
    (h : [c] ∈ findCandidateKeys d) :
    noDupB (getCol d c) = true ∧ allSome (getCol d c) = true := by
  rw [findCandidateKeys] at h
  by_cases hs : ((d.cols.filter
      (fun c => noDupB (getCol d c) && allSome (getCol d c))).map (fun c => [c])).isEmpty
  · rw [if_neg (by simp [hs])] at h
    exfalso
    have := List.take_subset 3 _ h
    rcases List.mem_map.mp this with ⟨p, _, hp⟩
    simp at hp
  · rw [if_pos (by simpa using hs)] at h
    rcases List.mem_map.mp h with ⟨c2, hc2, he⟩
    have : c2 = c := by simpa using he
    subst this
    have hmf := List.mem_filter.mp hc2
    have hp := hmf.2
    rw [Bool.and_eq_true] at hp
    exact ⟨hp.1, hp.2⟩

theorem headD_mem {l : List (List String)} (h : l ≠ []) : l.headD [] ∈ l := by
  cases l with
  | nil => exact absurd rfl h
  | cons x xs => simp

theorem surrogate_col_ok (d : DF) (s : String) (hwf : wfDF d) :
    noDupB (getCol (setCol d s (surrogateSeries d.rows.length)) s) = true ∧
    allSome (getCol (setCol d s (surrogateSeries d.rows.length)) s) = true := by
  rw [getCol_setCol _ _ _ hwf (surrogateSeries_length _)]
  exact ⟨noDupB_surrogateSeries _, allSome_surrogateSeries _⟩

/-- C1, amended: whenever `_ensure_primary_key` assigns a single-column
primary key — a chosen single-column candidate, or a synthesized surrogate —
that column is unique and non-null across all rows of the resulting
dataframe.  (The claim's blanket invariant over all NormalizedTables fails:
see the counterexample, a dimension table with duplicated key values.) -/
theorem c1_single_column_key_unique (tname : String) (d : DF) (c : String)
    (hwf : wfDF d)
    (h : (ensurePrimaryKey tname d (findCandidateKeys d)).1 = [c]) :
    noDupB (getCol (ensurePrimaryKey tname d (findCandidateKeys d)).2 c) = true ∧
    allSome (getCol (ensurePrimaryKey tname d (findCandidateKeys d)).2 c) = true := by
  by_cases hce : (findCandidateKeys d).isEmpty
  · simp only [ensurePrimaryKey, hce, if_true] at h ⊢
    have hc : (if d.cols.contains (tname ++ "_id") && !noDupB (getCol d (tname ++ "_id"))
        then tname ++ "_surrogate_id" else tname ++ "_id") = c := by
      simpa using h
    rw [hc] at *
    exact surrogate_col_ok d c hwf
  · have hce' : (findCandidateKeys d).isEmpty = false := by
      simpa using hce
    simp only [ensurePrimaryKey, hce', Bool.false_eq_true, if_false] at h ⊢
    by_cases hm : (((sortCandidates (rankKey tname) (findCandidateKeys d)).headD []).filter
        (fun c => !(d.cols.contains c))).isEmpty
    · simp only [hm, Bool.not_true, Bool.false_eq_true, if_false] at h ⊢
      have hck : findCandidateKeys d ≠ [] := by
        intro he
        rw [he] at hce'
        simp at hce'
      have hrne : sortCandidates (rankKey tname) (findCandidateKeys d) ≠ [] := by
        intro he
        have := @length_sortCandidates (rankKey tname) (findCandidateKeys d)
        rw [he] at this
        exact hck (List.length_eq_zero.mp this.symm)
      have hmem : [c] ∈ findCandidateKeys d := by
        rw [← h]
        exact mem_sortCandidates.mp (headD_mem hrne)
      obtain ⟨hnd, hall⟩ := mem_findCandidateKeys_single hmem
      rw [h]
      simp only [List.foldl_cons, List.foldl_nil,
        any_isNone_eq_false_of_allSome hall, Bool.false_eq_true, if_false]
      exact ⟨hnd, hall⟩
    · have hm' : (((sortCandidates (rankKey tname) (findCandidateKeys d)).headD []).filter
          (fun c => !(d.cols.contains c))).isEmpty = false := by
        simpa using hm
      simp only [hm', Bool.not_false, if_true] at h ⊢
      have hc : tname ++ "_id" = c := by
        simpa using h
      rw [hc] at *
      exact surrogate_col_ok d c hwf

/-- C1, witness: on the two-row table with unique non-null column `k` the
assigned key is `[k]` and the theorem yields uniqueness and non-nullness. -/
theorem c1_single_column_key_unique_witness :
    (ensurePrimaryKey "t" ⟨["k"], [[some (Val.int 1)], [some (Val.int 2)]]⟩
      (findCandidateKeys ⟨["k"], [[some (Val.int 1)], [some (Val.int 2)]]⟩)).1 = ["k"] ∧
    noDupB (getCol (ensurePrimaryKey "t" ⟨["k"], [[some (Val.int 1)], [some (Val.int 2)]]⟩
      (findCandidateKeys ⟨["k"], [[some (Val.int 1)], [some (Val.int 2)]]⟩)).2 "k") = true ∧
    allSome (getCol (ensurePrimaryKey "t" ⟨["k"], [[some (Val.int 1)], [some (Val.int 2)]]⟩
      (findCandidateKeys ⟨["k"], [[some (Val.int 1)], [some (Val.int 2)]]⟩)).2 "k") = true := by
  refine ⟨by decide, ?_, ?_⟩
  · exact (c1_single_column_key_unique "t" _ "k" (by unfold wfDF; decide) (by decide)).1
  · exact (c1_single_column_key_unique "t" _ "k" (by unfold wfDF; decide) (by decide)).2

/-- C5, amended: on a 5-row table with *no candidate key at all* (no unique
non-null single column and no injective null-free pair among the first 8
columns), `_ensure_primary_key` synthesizes a surrogate column named
`{table}_id` — or `{table}_surrogate_id` when a non-unique column of that
name already exists — whose values are exactly `[1, 2, 3, 4, 5]` in source
row order. -/
theorem c5_surrogate_key_sequence (tname : String) (d : DF) (hwf : wfDF d)
    (hck : findCandidateKeys d = []) (hn : d.rows.length = 5) :
    ∃ s : String, (s = tname ++ "_id" ∨ s = tname ++ "_surrogate_id") ∧
      (ensurePrimaryKey tname d (findCandidateKeys d)).1 = [s] ∧
      getCol (ensurePrimaryKey tname d (findCandidateKeys d)).2 s =
        [some (Val.int 1), some (Val.int 2), some (Val.int 3),
         some (Val.int 4), some (Val.int 5)] := by
  rw [hck]
  simp only [ensurePrimaryKey, List.isEmpty_nil, if_true]
  by_cases hcol : d.cols.contains (tname ++ "_id") && !noDupB (getCol d (tname ++ "_id"))
  · refine ⟨tname ++ "_surrogate_id", Or.inr rfl, ?_, ?_⟩
    · simp only [hcol, if_true]
    · simp only [hcol, if_true]
      rw [getCol_setCol _ _ _ hwf (surrogateSeries_length _), hn]
      rfl
  · have hcol' : (d.cols.contains (tname ++ "_id") && !noDupB (getCol d (tname ++ "_id"))) = false := by
      simpa using hcol
    refine ⟨tname ++ "_id", Or.inl rfl, ?_, ?_⟩
    · simp only [hcol', Bool.false_eq_true, if_false]
    · simp only [hcol', Bool.false_eq_true, if_false]
      rw [getCol_setCol _ _ _ hwf (surrogateSeries_length _), hn]
      rfl

/-- C5, witness: the 5-row single-column table with constant values has no
candidate key, and the synthesized key column holds `[1, 2, 3, 4, 5]`. -/
theorem c5_surrogate_key_sequence_witness :
    ∃ s : String, (s = "t" ++ "_id" ∨ s = "t" ++ "_surrogate_id") ∧
      (ensurePrimaryKey "t" ⟨["a"], [[some (Val.int 9)], [some (Val.int 9)],
        [some (Val.int 9)], [some (Val.int 9)], [some (Val.int 9)]]⟩
        (findCandidateKeys ⟨["a"], [[some (Val.int 9)], [some (Val.int 9)],
          [some (Val.int 9)], [some (Val.int 9)], [some (Val.int 9)]]⟩)).1 = [s] ∧
      getCol (ensurePrimaryKey "t" ⟨["a"], [[some (Val.int 9)], [some (Val.int 9)],
        [some (Val.int 9)], [some (Val.int 9)], [some (Val.int 9)]]⟩
        (findCandidateKeys ⟨["a"], [[some (Val.int 9)], [some (Val.int 9)],
          [some (Val.int 9)], [some (Val.int 9)], [some (Val.int 9)]]⟩)).2 s =
        [some (Val.int 1), some (Val.int 2), some (Val.int 3),
         some (Val.int 4), some (Val.int 5)] :=
  c5_surrogate_key_sequence "t" _ (by unfold wfDF; decide) (by decide) (by decide)

theorem noTwoSpaces_tail {a : Char} {l : List Char}
    (h : noTwoSpaces (a :: l) = true) : noTwoSpaces l = true := by
  cases l with
  | nil => rfl
  | cons b r =>
    rw [noTwoSpaces, Bool.and_eq_true] at h
    exact h.2

theorem collapseSepsAux_true_of_head {l : List Char}
    (h : ∀ c, l.head? = some c → specSep c = false) :
    collapseSepsAux true l = collapseSepsAux false l := by
  cases l with
  | nil => rfl
  | cons c r =>
    have hc : specSep c = false := h c rfl
    simp [collapseSepsAux, hc]

theorem collapseSepsAux_eq_replace (l : List Char) (h1 : '-' ∉ l) (h2 : '/' ∉ l)
    (h3 : noTwoSpaces l = true) :
    collapseSepsAux false l = pyReplaceChar ' ' '_' l := by
  induction l with
  | nil => rfl
  | cons c r ih =>
    have h1' : '-' ∉ r := fun hm => h1 (List.mem_cons_of_mem _ hm)
    have h2' : '/' ∉ r := fun hm => h2 (List.mem_cons_of_mem _ hm)
    have h3' : noTwoSpaces r = true := noTwoSpaces_tail h3
    have hcd : ¬ c = '-' := by
      intro he
      refine h1 ?_
      rw [← he]
      exact List.mem_cons_self c r
    have hcs2 : ¬ c = '/' := by
      intro he
      refine h2 ?_
      rw [← he]
      exact List.mem_cons_self c r
    by_cases hsep : specSep c
    · have hcsp : c = ' ' := by
        have h := hsep
        rw [specSep] at h
        simp only [Bool.or_eq_true, decide_eq_true_eq] at h
        rcases h with (h | h) | h
        · exact h
        · exact absurd h hcd
        · exact absurd h hcs2
      subst hcsp
      have hhead : ∀ d, r.head? = some d → specSep d = false := by
        intro d hd
        cases r with
        | nil => simp at hd
        | cons e r2 =>
          simp only [List.head?_cons, Option.some.injEq] at hd
          subst hd
          rw [noTwoSpaces, Bool.and_eq_true] at h3
          have hesp : ¬ e = ' ' := by simpa using h3.1
          have he1 : ¬ e = '-' := fun he => h1' (by rw [← he] at *; exact List.mem_cons_self e r2)
          have he2 : ¬ e = '/' := fun he => h2' (by rw [← he] at *; exact List.mem_cons_self e r2)
          simp [specSep, hesp, he1, he2]
      rw [pyReplaceChar, List.map_cons]
      simp only [if_pos rfl]
      rw [collapseSepsAux, if_pos (by simp [specSep])]
      rw [collapseSepsAux_true_of_head hhead, ih h1' h2' h3']
      rfl
    · have hcs : specSep c = false := by simpa using hsep
      have hcsp : ¬ c = ' ' := by
        intro he
        rw [he] at hcs
        simp [specSep] at hcs
      rw [collapseSepsAux, if_neg (by simp [hcs]), pyReplaceChar, List.map_cons, if_neg hcsp]
      rw [ih h1' h2' h3']
      rfl

/-- C4, amended: the derived table name is the stem lower-cased with each
space replaced by an underscore; it coincides with the spec's rule
(runs of spaces, hyphens and slashes collapsed to a single underscore)
exactly when the lower-cased stem contains no hyphen, no slash, and no two
adjacent spaces. -/
theorem c4_table_name_agreement (stem : List Char)
    (h1 : '-' ∉ pyLower stem) (h2 : '/' ∉ pyLower stem)
    (h3 : noTwoSpaces (pyLower stem) = true) :
    deriveTableName stem = specDeriveTableName stem := by
  rw [deriveTableName, specDeriveTableName]
  exact (collapseSepsAux_eq_replace _ h1 h2 h3).symm

/-- C4, witness: for the stem `My Data` both the code and the spec rule
give `my_data`. -/
theorem c4_table_name_agreement_witness :
    deriveTableName "My Data".data = specDeriveTableName "My Data".data :=
  c4_table_name_agreement _ (by decide) (by decide) (by decide)

/-!  ### Character and strip lemmas for name canonicalization  -/

theorem char_ofNat_toNat_of_le {n : Nat} (h1 : 97 ≤ n) (h2 : n ≤ 122) :
    (Char.ofNat n).toNat = n := by
  interval_cases n <;> rfl

theorem toLower_eq_ite (c : Char) :
    Char.toLower c = if c.toNat ≥ 65 ∧ c.toNat ≤ 90 then Char.ofNat (c.toNat + 32) else c :=
  rfl

theorem toLower_cases (c : Char) :
    Char.toLower c = c ∨
    (97 ≤ (Char.toLower c).toNat ∧ (Char.toLower c).toNat ≤ 122) := by
  rw [toLower_eq_ite]
  by_cases h : c.toNat ≥ 65 ∧ c.toNat ≤ 90
  · right
    rw [if_pos h]
    rw [char_ofNat_toNat_of_le (by omega) (by omega)]
    omega
  · left
    rw [if_neg h]

theorem toLower_fix_of_not_upper {c : Char} (h : ¬(c.toNat ≥ 65 ∧ c.toNat ≤ 90)) :
    Char.toLower c = c := by
  rw [toLower_eq_ite, if_neg h]

theorem toLower_toLower (c : Char) :
    Char.toLower (Char.toLower c) = Char.toLower c := by
  rcases toLower_cases c with h | h
  · rw [h, h]
  · exact toLower_fix_of_not_upper (by omega)

theorem toLower_eq_self_of_toNat_lt {c : Char}
    (h : (Char.toLower c).toNat < 97) : Char.toLower c = c := by
  rcases toLower_cases c with h2 | h2
  · exact h2
  · omega

theorem pyIsSpace_toLower_fix {c : Char} (h : pyIsSpace (Char.toLower c) = true) :
    Char.toLower c = c := by
  apply toLower_eq_self_of_toNat_lt
  rw [pyIsSpace] at h
  simp only [Bool.or_eq_true, decide_eq_true_eq] at h
  rcases h with ((((h | h) | h) | h) | h) | h <;> rw [h] <;> decide

theorem dropWhile_head_false {p : Char → Bool} {l : List Char} {x : Char} {xs : List Char}
    (h : l.dropWhile p = x :: xs) : p x = false := by
  induction l with
  | nil => simp at h
  | cons y ys ih =>
    rw [List.dropWhile_cons] at h
    by_cases hy : p y
    · rw [if_pos (by simp [hy])] at h
      exact ih h
    · rw [if_neg (by simp [hy])] at h
      cases h
      simpa using hy

theorem dropWhile_eq_self_of_head {p : Char → Bool} {l : List Char}
    (h : ∀ x, l.head? = some x → p x = false) : l.dropWhile p = l := by
  cases l with
  | nil => rfl
  | cons x xs =>
    rw [List.dropWhile_cons, if_neg (by simp [h x rfl])]

theorem dropWhile_eq_self_of_all {p : Char → Bool} {l : List Char}
    (h : ∀ c ∈ l, p c = false) : l.dropWhile p = l := by
  refine dropWhile_eq_self_of_head (fun x hx => ?_)
  exact h x (by cases l <;> simp_all)

theorem stripBy_eq_self_of_all {p : Char → Bool} {l : List Char}
    (h : ∀ c ∈ l, p c = false) : stripBy p l = l := by
  rw [stripBy, dropWhile_eq_self_of_all h,
    dropWhile_eq_self_of_all (fun c hc => h c (List.mem_reverse.mp hc)),
    List.reverse_reverse]

theorem stripBy_isInfix (p : Char → Bool) (l : List Char) : stripBy p l <:+: l := by
  rw [stripBy]
  have h1 : l.dropWhile p <:+ l := List.dropWhile_suffix p
  have h2 : (l.dropWhile p).reverse.dropWhile p <:+ (l.dropWhile p).reverse :=
    List.dropWhile_suffix p
  have h3 : ((l.dropWhile p).reverse.dropWhile p).reverse <+: l.dropWhile p := by
    rw [← List.reverse_reverse (l.dropWhile p)] at h2 ⊢
    rw [List.reverse_prefix]
    simpa using h2
  exact (List.IsPrefix.isInfix h3).trans (List.IsSuffix.isInfix h1)

theorem mem_stripBy {p : Char → Bool} {l : List Char} {c : Char}
    (h : c ∈ stripBy p l) : c ∈ l :=
  (stripBy_isInfix p l).subset h

theorem getLast?_of_suffix {l₁ l₂ : List Char} (h : l₁ <:+ l₂) (hne : l₁ ≠ []) :
    l₁.getLast? = l₂.getLast? := by
  obtain ⟨pre, rfl⟩ := h
  exact (List.getLast?_append_of_ne_nil pre hne).symm

theorem dropWhile_idem (p : Char → Bool) (w : List Char) :
    (w.dropWhile p).dropWhile p = w.dropWhile p := by
  cases hm : w.dropWhile p with
  | nil => rfl
  | cons y ys =>
    refine dropWhile_eq_self_of_head (fun x hx => ?_)
    simp only [List.head?_cons, Option.some.injEq] at hx
    subst hx
    exact dropWhile_head_false hm

theorem stripBy_idem (p : Char → Bool) (l : List Char) :
    stripBy p (stripBy p l) = stripBy p l := by
  by_cases hz : (l.dropWhile p).reverse.dropWhile p = []
  · simp only [stripBy, hz, List.reverse_nil, List.dropWhile_nil]
  · have hA : (stripBy p l).dropWhile p = stripBy p l := by
      refine dropWhile_eq_self_of_head (fun x hx => ?_)
      rw [stripBy, List.head?_reverse,
        getLast?_of_suffix (List.dropWhile_suffix p) hz, List.getLast?_reverse] at hx
      cases hm : l.dropWhile p with
      | nil => rw [hm] at hx; simp at hx
      | cons y ys =>
        rw [hm] at hx
        simp only [List.head?_cons, Option.some.injEq] at hx
        subst hx
        exact dropWhile_head_false hm
    conv_lhs => rw [stripBy]
    rw [hA]
    conv_lhs => rw [stripBy, List.reverse_reverse]
    rw [dropWhile_idem]
    rfl

theorem mem_replacePairs {l : List Char} {c : Char} (h : c ∈ replacePairs l) : c ∈ l := by
  induction l using replacePairs.induct with
  | case1 rest ih =>
    simp only [replacePairs] at h
    rcases List.mem_cons.mp h with h | h
    · subst h
      exact List.mem_cons_self _ _
    · exact List.mem_cons_of_mem _ (List.mem_cons_of_mem _ (ih h))
  | case2 c2 rest hne ih =>
    rw [show replacePairs (c2 :: rest) = c2 :: replacePairs rest from ?_] at h
    · rcases List.mem_cons.mp h with h | h
      · subst h
        exact List.mem_cons_self _ _
      · exact List.mem_cons_of_mem _ (ih h)
    · rw [replacePairs]
      exact hne
  | case3 => simp [replacePairs] at h

theorem length_replacePairs_le (l : List Char) : (replacePairs l).length ≤ l.length := by
  induction l using replacePairs.induct with
  | case1 rest ih =>
    simp only [replacePairs, List.length_cons]
    omega
  | case2 c2 rest hne ih =>
    rw [show replacePairs (c2 :: rest) = c2 :: replacePairs rest from ?_]
    · simp only [List.length_cons]
      omega
    · rw [replacePairs]
      exact hne
  | case3 => simp [replacePairs]

theorem length_replacePairs_lt {l : List Char} (h : hasPair l = true) :
    (replacePairs l).length < l.length := by
  induction l using replacePairs.induct with
  | case1 rest ih =>
    simp only [replacePairs, List.length_cons]
    have := length_replacePairs_le rest
    omega
  | case2 c2 rest hne ih =>
    have hp : hasPair rest = true := by
      rw [show hasPair (c2 :: rest) = hasPair rest from ?_] at h
      · exact h
      · rw [hasPair]
        exact hne
    rw [show replacePairs (c2 :: rest) = c2 :: replacePairs rest from ?_]
    · simp only [List.length_cons]
      have := ih hp
      omega
    · rw [replacePairs]
      exact hne
  | case3 => simp [hasPair] at h

theorem hasPair_collapseAux {fuel : Nat} {l : List Char} (h : l.length ≤ fuel) :
    hasPair (collapseAux fuel l) = false := by
  induction fuel generalizing l with
  | zero =>
    have : l = [] := List.length_eq_zero.mp (by omega)
    subst this
    rfl
  | succ n ih =>
    rw [collapseAux]
    by_cases hp : hasPair l
    · rw [if_pos hp]
      refine ih ?_
      have := length_replacePairs_lt hp
      omega
    · rw [if_neg hp]
      simpa using hp

theorem mem_collapseAux {fuel : Nat} {l : List Char} {c : Char}
    (h : c ∈ collapseAux fuel l) : c ∈ l := by
  induction fuel generalizing l with
  | zero => simpa [collapseAux] using h
  | succ n ih =>
    rw [collapseAux] at h
    by_cases hp : hasPair l
    · rw [if_pos hp] at h
      exact mem_replacePairs (ih h)
    · rwa [if_neg hp] at h

theorem collapseAux_of_no_pair {fuel : Nat} {l : List Char} (h : hasPair l = false) :
    collapseAux fuel l = l := by
  cases fuel with
  | zero => rfl
  | succ n =>
    rw [collapseAux, if_neg (by simp [h])]

theorem hasPair_append_right {a b : List Char} (h : hasPair (a ++ b) = false) :
    hasPair b = false := by
  induction a with
  | nil => simpa using h
  | cons x xs ih =>
    rw [List.cons_append] at h
    refine ih ?_
    cases hxp : hasPair (xs ++ b) with
    | false => rfl
    | true =>
      exfalso
      rw [show hasPair (x :: (xs ++ b)) = true from ?_] at h
      · exact absurd h (by simp)
      · cases hxs : xs ++ b with
        | nil =>
          rw [hxs] at hxp
          simp [hasPair] at hxp
        | cons y ys =>
          rw [hxs] at hxp
          by_cases hx2 : x = '_' ∧ y = '_'
          · rw [hx2.1, hx2.2, hasPair]
          · rw [show hasPair (x :: y :: ys) = hasPair (y :: ys) from ?_]
            · exact hxp
            · rw [hasPair]
              intro rest h1 h2
              exact hx2 ⟨h1, by cases h2; rfl⟩

theorem hasPair_append_left {a b : List Char} (h : hasPair (a ++ b) = false) :
    hasPair a = false := by
  induction a with
  | nil => rfl
  | cons x xs ih =>
    cases hxs : xs with
    | nil => simp [hasPair]
    | cons y ys =>
      subst hxs
      by_cases hx2 : x = '_' ∧ y = '_'
      · exfalso
        rw [List.cons_append, List.cons_append, hx2.1, hx2.2, hasPair] at h
        exact absurd h (by simp)
      · have htail : hasPair (x :: ((y :: ys) ++ b)) = hasPair ((y :: ys) ++ b) := by
          rw [List.cons_append] at *
          rw [hasPair]
          intro rest h1 h2
          exact hx2 ⟨h1, by cases h2; rfl⟩
        rw [List.cons_append, htail] at h
        have := ih h
        rw [show hasPair (x :: y :: ys) = hasPair (y :: ys) from ?_]
        · exact this
        · rw [hasPair]
          intro rest h1 h2
          exact hx2 ⟨h1, by cases h2; rfl⟩

theorem hasPair_infix {a l : List Char} (hi : a <:+: l) (h : hasPair l = false) :
    hasPair a = false := by
  obtain ⟨pre, post, rfl⟩ := hi
  exact hasPair_append_left (@hasPair_append_right pre (a ++ post) (by simpa using h))

theorem map_eq_self_of_fix {f : Char → Char} {l : List Char}
    (h : ∀ c ∈ l, f c = c) : l.map f = l := by
  induction l with
  | nil => rfl
  | cons x xs ih =>
    rw [List.map_cons, h x (List.mem_cons_self x xs),
      ih (fun c hc => h c (List.mem_cons_of_mem _ hc))]

theorem c7_char_props {s : List Char}
    (hs : ∀ c ∈ s, pyIsSpace c = true → c = ' ') {c : Char}
    (h : c ∈ pyReplaceChar '/' '_' (pyReplaceChar '-' '_' (pyReplaceChar ' ' '_'
      (pyLower (pyStrip s))))) :
    pyIsSpace c = false ∧ ¬c = ' ' ∧ ¬c = '-' ∧ ¬c = '/' ∧ Char.toLower c = c := by
  rw [pyReplaceChar] at h
  obtain ⟨c2, hc2, rfl⟩ := List.mem_map.mp h
  rw [pyReplaceChar] at hc2
  obtain ⟨c3, hc3, rfl⟩ := List.mem_map.mp hc2
  rw [pyReplaceChar] at hc3
  obtain ⟨c4, hc4, rfl⟩ := List.mem_map.mp hc3
  rw [pyLower] at hc4
  obtain ⟨a, ha, rfl⟩ := List.mem_map.mp hc4
  have ha' : a ∈ s := by
    rw [pyStrip] at ha
    exact mem_stripBy ha
  by_cases h1 : Char.toLower a = ' '
  · simp only [h1]
    decide
  · rw [if_neg h1]
    by_cases h2 : Char.toLower a = '-'
    · simp only [h2]
      decide
    · rw [if_neg h2]
      by_cases h3 : Char.toLower a = '/'
      · simp only [h3]
        decide
      · rw [if_neg h3]
        refine ⟨?_, h1, h2, h3, toLower_toLower a⟩
        cases hws : pyIsSpace (Char.toLower a) with
        | false => rfl
        | true =>
          exfalso
          have hfix := pyIsSpace_toLower_fix hws
          rw [hfix] at hws
          have hsp := hs a ha' hws
          rw [hsp] at h1
          exact h1 (by decide)

/-- C7, amended: column-name canonicalization is a pure function of the
input string, and it is idempotent on every raw name whose whitespace
characters are all plain spaces (the counterexample shows idempotence fails
when another whitespace character hides behind an edge underscore). -/
theorem c7_normalize_name_idempotent (s : List Char)
    (hs : ∀ c ∈ s, pyIsSpace c = true → c = ' ') :
    normalizeName (normalizeName s) = normalizeName s := by
  set r := normalizeName s with hr
  have hprops : ∀ c ∈ r, pyIsSpace c = false ∧ ¬c = ' ' ∧ ¬c = '-' ∧ ¬c = '/' ∧
      Char.toLower c = c := by
    intro c hc
    rw [hr, normalizeName, stripUnderscore] at hc
    have hc2 := mem_stripBy hc
    rw [collapseUnderscores] at hc2
    exact c7_char_props hs (mem_collapseAux hc2)
  have hpair : hasPair r = false := by
    rw [hr, normalizeName, stripUnderscore]
    refine hasPair_infix (stripBy_isInfix _ _) ?_
    rw [collapseUnderscores]
    exact hasPair_collapseAux (le_refl _)
  have h1 : pyStrip r = r := by
    rw [pyStrip]
    exact stripBy_eq_self_of_all (fun c hc => (hprops c hc).1)
  have h2 : pyLower r = r := by
    rw [pyLower]
    exact map_eq_self_of_fix (fun c hc => (hprops c hc).2.2.2.2)
  have h3 : pyReplaceChar ' ' '_' r = r := by
    rw [pyReplaceChar]
    exact map_eq_self_of_fix (fun c hc => if_neg (hprops c hc).2.1)
  have h4 : pyReplaceChar '-' '_' r = r := by
    rw [pyReplaceChar]
    exact map_eq_self_of_fix (fun c hc => if_neg (hprops c hc).2.2.1)
  have h5 : pyReplaceChar '/' '_' r = r := by
    rw [pyReplaceChar]
    exact map_eq_self_of_fix (fun c hc => if_neg (hprops c hc).2.2.2.1)
  have h6 : collapseUnderscores r = r := by
    rw [collapseUnderscores]
    exact collapseAux_of_no_pair hpair
  have h7 : stripUnderscore r = r := by
    conv_lhs => rw [hr, normalizeName]
    rw [stripUnderscore, stripUnderscore, stripBy_idem]
    rw [hr, normalizeName, stripUnderscore]
  rw [normalizeName, h1, h2, h3, h4, h5, h6]
  exact h7

/-- C7, witness: the raw name `My Col` (whitespace is a plain space) is
canonicalized idempotently. -/
theorem c7_normalize_name_idempotent_witness :
    normalizeName (normalizeName "My Col".data) = normalizeName "My Col".data :=
  c7_normalize_name_idempotent _ (by decide)

/-!  ### Single-table pipeline lemmas  -/

theorem foldl_fixed {α β : Type} (f : β → α → β) (l : List α)
    (h : ∀ b, ∀ a ∈ l, f b a = b) : ∀ b, l.foldl f b = b := by
  induction l with
  | nil => intro b; rfl
  | cons x xs ih =>
    intro b
    rw [List.foldl_cons, h b x (List.mem_cons_self x xs)]
    exact ih (fun b2 a ha => h b2 a (List.mem_cons_of_mem _ ha)) b

theorem extractDimsGo_skip (tname : String) (pk : List String) (c : String)
    (cs : List String) (dims : List (String × NTable)) (df : DF)
    (h : pk.contains c = true ∨ strSfx c "_id" = false ∨
      ((df.cols.filter (fun x => strPfx (strDropRight c 3 ++ "_") x)).filter
        (fun x => x ≠ c)).isEmpty = true ∨
      (dropnaSubset (dedupDF (selectCols df (c ::
        ((df.cols.filter (fun x => strPfx (strDropRight c 3 ++ "_") x)).filter
          (fun x => x ≠ c))))) [c]).rows.isEmpty = true) :
    extractDimsGo tname pk (c :: cs) dims df = extractDimsGo tname pk cs dims df := by
  by_cases h1 : pk.contains c
  · simp only [extractDimsGo, h1, if_true]
  · have h1' : pk.contains c = false := by simpa using h1
    by_cases h2 : strSfx c "_id"
    · rcases h with h3 | h3 | h3 | h3
      · exact absurd h3 h1
      · exact absurd h2 (by simp [h3])
      · simp only [extractDimsGo, h1', Bool.false_eq_true, if_false, h2, Bool.not_true,
          h3, if_true]
      · by_cases h4 : ((df.cols.filter (fun x => strPfx (strDropRight c 3 ++ "_") x)).filter
            (fun x => x ≠ c)).isEmpty
        · simp only [extractDimsGo, h1', Bool.false_eq_true, if_false, h2, Bool.not_true,
            h4, if_true]
        · have h4' : ((df.cols.filter (fun x => strPfx (strDropRight c 3 ++ "_") x)).filter
              (fun x => x ≠ c)).isEmpty = false := by simpa using h4
          simp only [extractDimsGo, h1', Bool.false_eq_true, if_false, h2, Bool.not_true,
            h4', h3, if_true]
    · have h2' : strSfx c "_id" = false := by simpa using h2
      simp only [extractDimsGo, h1', Bool.false_eq_true, if_false, h2', Bool.not_false,
        if_true]

theorem extractDimsGo_id (tname : String) (pk : List String) :
    ∀ (cs : List String) (dims : List (String × NTable)) (df : DF),
    (∀ c ∈ cs, pk.contains c = true ∨ strSfx c "_id" = false ∨
      ((df.cols.filter (fun x => strPfx (strDropRight c 3 ++ "_") x)).filter
        (fun x => x ≠ c)).isEmpty = true ∨
      (dropnaSubset (dedupDF (selectCols df (c ::
        ((df.cols.filter (fun x => strPfx (strDropRight c 3 ++ "_") x)).filter
          (fun x => x ≠ c))))) [c]).rows.isEmpty = true) →
    extractDimsGo tname pk cs dims df = (dims, df) := by
  intro cs
  induction cs with
  | nil =>
    intro dims df _
    rfl
  | cons c cs' ih =>
    intro dims df h
    rw [extractDimsGo_skip tname pk c cs' dims df (h c (List.mem_cons_self _ _))]
    exact ih dims df (fun c2 hc2 => h c2 (List.mem_cons_of_mem _ hc2))

theorem ensurePrimaryKey_first_single (name : String) (d : DF) (c0 : String)
    (rest : List String) (hcols : d.cols = c0 :: rest)
    (hnd : noDupB (getCol d c0) = true) (hall : allSome (getCol d c0) = true)
    (hnoid : "id" ∉ d.cols) (hnotid : (name ++ "_id") ∉ d.cols) :
    ensurePrimaryKey name d (findCandidateKeys d) = ([c0], d) := by
  have hfilter : d.cols.filter (fun c => noDupB (getCol d c) && allSome (getCol d c)) =
      c0 :: rest.filter (fun c => noDupB (getCol d c) && allSome (getCol d c)) := by
    rw [hcols, List.filter_cons_of_pos (by simp [hnd, hall])]
  have hck : findCandidateKeys d =
      [c0] :: (rest.filter (fun c => noDupB (getCol d c) && allSome (getCol d c))).map
        (fun c => [c]) := by
    rw [findCandidateKeys]
    simp only [hfilter, List.map_cons, List.isEmpty_cons, Bool.not_false, if_true]
  have hrank : ∀ y ∈ findCandidateKeys d, rankKey name y = (1, 1, 1) := by
    intro y hy
    have hy' : ∃ c, y = [c] ∧ c ∈ d.cols := by
      rw [hck] at hy
      rcases List.mem_cons.mp hy with h | hy2
      · exact ⟨c0, h, by rw [hcols]; exact List.mem_cons_self _ _⟩
      · obtain ⟨c, hcmem, he⟩ := List.mem_map.mp hy2
        refine ⟨c, he.symm, ?_⟩
        rw [hcols]
        exact List.mem_cons_of_mem _ (List.mem_filter.mp hcmem).1
    obtain ⟨c, rfl, hcmem⟩ := hy'
    have h1 : (([c] : List String).contains "id") = false := by
      rw [← Bool.not_eq_true]
      intro hcon
      have : c = "id" := by
        have h3 : "id" ∈ [c] := contains_iff_mem.mp hcon
        have h4 : "id" = c := by simpa using h3
        exact h4.symm
      exact hnoid (this ▸ hcmem)
    have h2 : (([c] : List String).contains (name ++ "_id")) = false := by
      rw [← Bool.not_eq_true]
      intro hcon
      have : c = name ++ "_id" := by
        have h3 : name ++ "_id" ∈ [c] := contains_iff_mem.mp hcon
        have h4 : name ++ "_id" = c := by simpa using h3
        exact h4.symm
      exact hnotid (this ▸ hcmem)
    rw [rankKey, h1, h2]
    simp
  have hne : (findCandidateKeys d).isEmpty = false := by
    rw [hck]
    rfl
  have hc0mem : c0 ∈ d.cols := by
    rw [hcols]
    exact List.mem_cons_self _ _
  have hmiss : (([c0] : List String).filter (fun c => !(d.cols.contains c))) = [] := by
    rw [List.filter_eq_nil_iff]
    intro a ha
    have : a = c0 := by simpa using ha
    subst this
    simp [hc0mem]
  rw [ensurePrimaryKey, if_neg (by simp [hne]), sortCandidates_const hrank, hck]
  simp only [List.headD_cons, hmiss, List.isEmpty_nil, Bool.not_true, Bool.false_eq_true,
    if_false, List.foldl_cons, List.foldl_nil, any_isNone_eq_false_of_allSome hall]

theorem normalizeTables_single (name : String) (d : DF) (pk : List String) (d2 : DF)
    (hpk : ensurePrimaryKey name d (findCandidateKeys d) = (pk, d2))
    (hext : extractDims name d2 pk = ([], d2))
    (hfk : registerFKsOf (buildRegistry [⟨name, d2, pk, [], [name]⟩])
      ⟨name, d2, pk, [], [name]⟩ = []) :
    normalizeTables [⟨name, d⟩] = .ok [⟨name, d2, pk, [], [name]⟩] := by
  have hloop : normalizeLoop [⟨name, d⟩] = ([], [⟨name, d2, pk, [], [name]⟩]) := by
    simp only [normalizeLoop, List.foldl_cons, List.foldl_nil, normalizeStep, hpk, hext]
    rfl
  show enforceReferentialIntegrity (registerForeignKeys
    (allTablesOf (normalizeLoop [⟨name, d⟩]).1 (normalizeLoop [⟨name, d⟩]).2)) = _
  rw [hloop]
  have hreg : registerForeignKeys [(⟨name, d2, pk, [], [name]⟩ : NTable)] =
      [⟨name, d2, pk, [], [name]⟩] := by
    simp only [registerForeignKeys, List.map_cons, List.map_nil, hfk]
  show enforceReferentialIntegrity (registerForeignKeys [⟨name, d2, pk, [], [name]⟩]) = _
  rw [hreg]
  rfl

/-- C8, amended: a single CSV table whose first column is unique and
non-null, with no `_id`-suffixed attribute groups, and additionally no
column literally named `id` and no column named `{table}_id` (otherwise the
ranking prefers those), produces exactly one NormalizedTable whose primary
key is that first column, with no foreign keys and the dataframe unchanged
(the embedding starts after column-name canonicalization). -/
theorem c8_clean_round_trip (name : String) (d : DF) (c0 : String) (rest : List String)
    (hcols : d.cols = c0 :: rest)
    (hnd : noDupB (getCol d c0) = true) (hall : allSome (getCol d c0) = true)
    (hnoid : "id" ∉ d.cols) (hnotid : (name ++ "_id") ∉ d.cols)
    (hgroups : ∀ c ∈ d.cols, strSfx c "_id" = true →
      ∀ x ∈ d.cols, x ≠ c → strPfx (strDropRight c 3 ++ "_") x = false) :
    normalizeTables [⟨name, d⟩] = .ok [⟨name, d, [c0], [], [name]⟩] := by
  have hpk := ensurePrimaryKey_first_single name d c0 rest hcols hnd hall hnoid hnotid
  have hext : extractDims name d [c0] = ([], d) := by
    rw [extractDims]
    refine extractDimsGo_id name [c0] d.cols [] d (fun c hc => ?_)
    by_cases h1 : c = c0
    · left
      subst h1
      simp
    · by_cases h2 : strSfx c "_id"
      · right; right; left
        have hnil : ((d.cols.filter (fun x => strPfx (strDropRight c 3 ++ "_") x)).filter
            (fun x => x ≠ c)) = [] := by
          rw [List.filter_eq_nil_iff]
          intro x hx
          have hx1 := List.mem_filter.mp hx
          simp only [ne_eq, decide_not, Bool.not_eq_true', decide_eq_false_iff_not,
            Decidable.not_not]
          by_contra hxc
          exact absurd hx1.2 (by simp [hgroups c hc h2 x hx1.1 hxc])
        rw [hnil]
        rfl
      · right; left
        simpa using h2
  have hfk : registerFKsOf (buildRegistry [⟨name, d, [c0], [], [name]⟩])
      ⟨name, d, [c0], [], [name]⟩ = [] := by
    have hbr : buildRegistry [(⟨name, d, [c0], [], [name]⟩ : NTable)] = [(c0, [name])] := rfl
    rw [registerFKsOf, hbr]
    refine foldl_fixed _ _ (fun b c hc => ?_) _
    simp only []
    by_cases h1 : c = c0
    · subst h1
      simp
    · have hcon : (([c0] : List String).contains c) = false := by
        rw [← Bool.not_eq_true]
        intro hx
        have : c ∈ [c0] := contains_iff_mem.mp hx
        exact h1 (by simpa using this)
      by_cases h2 : strSfx c "_id"
      · have haf : assocFind [(c0, [name])] c = none := by
          rw [assocFind, if_neg (fun he => h1 he.symm)]
          rfl
        simp only [hcon, Bool.false_eq_true, if_false, h2, Bool.not_true, haf,
          Option.getD_none, List.filter_nil]
      · have h2' : strSfx c "_id" = false := by simpa using h2
        simp only [hcon, Bool.false_eq_true, if_false, h2', Bool.not_false, if_true]
  exact normalizeTables_single name d [c0] d hpk hext hfk

/-- C8, witness: the two-column table `t(a, b)` with unique non-null first
column round-trips to a single NormalizedTable keyed by `a`. -/
theorem c8_clean_round_trip_witness :
    normalizeTables [⟨"t", ⟨["a", "b"],
      [[some (Val.int 1), some (Val.str "x")], [some (Val.int 2), some (Val.str "x")]]⟩⟩] =
    .ok [⟨"t", ⟨["a", "b"],
      [[some (Val.int 1), some (Val.str "x")], [some (Val.int 2), some (Val.str "x")]]⟩,
      ["a"], [], ["t"]⟩] :=
  c8_clean_round_trip "t" _ "a" ["b"] rfl (by decide) (by decide) (by decide) (by decide)
    (by decide)

theorem registerFKsOf_single_reg (name p : String) (df : DF) :
    registerFKsOf [(p, [name])] (⟨name, df, [p], [], [name]⟩ : NTable) = [] := by
  rw [registerFKsOf]
  refine foldl_fixed _ _ (fun b c hc => ?_) _
  simp only []
  by_cases h1 : c = p
  · subst h1
    simp
  · have hcon : (([p] : List String).contains c) = false := by
      rw [← Bool.not_eq_true]
      intro hx
      have : c ∈ [p] := contains_iff_mem.mp hx
      exact h1 (by simpa using this)
    by_cases h2 : strSfx c "_id"
    · have haf : assocFind [(p, [name])] c = none := by
        rw [assocFind, if_neg (fun he => h1 he.symm)]
        rfl
      simp only [hcon, Bool.false_eq_true, if_false, h2, Bool.not_true, haf,
        Option.getD_none, List.filter_nil]
    · have h2' : strSfx c "_id" = false := by simpa using h2
      simp only [hcon, Bool.false_eq_true, if_false, h2', Bool.not_false, if_true]

theorem ensurePrimaryKey_chosen (name : String) (d : DF) (c : String)
    (hne : (findCandidateKeys d).isEmpty = false)
    (hchosen : (sortCandidates (rankKey name) (findCandidateKeys d)).headD [] = [c])
    (hcmem : c ∈ d.cols)
    (hnonull : ((getCol d c).any (·.isNone)) = false) :
    ensurePrimaryKey name d (findCandidateKeys d) = ([c], d) := by
  have hmiss : (([c] : List String).filter (fun x => !(d.cols.contains x))) = [] := by
    rw [List.filter_eq_nil_iff]
    intro a ha
    have : a = c := by simpa using ha
    subst this
    simp [hcmem]
  rw [ensurePrimaryKey, if_neg (by simp [hne])]
  simp only [hchosen, hmiss, List.isEmpty_nil, Bool.not_true, Bool.false_eq_true, if_false,
    List.foldl_cons, List.foldl_nil, hnonull]

/-- C3, amended: every zero-row source table normalizes without error to a
single empty NormalizedTable.  The primary key is the synthesized surrogate
`{table}_id` only when the table has no column headers; with at least one
header, every column of an empty dataframe is a unique non-null candidate
key, so an existing column is chosen and the dataframe is unchanged. -/
theorem c3_empty_table (name : String) (cols : List String) :
    ∃ k df2, normalizeTables [⟨name, ⟨cols, []⟩⟩] = .ok [⟨name, df2, [k], [], [name]⟩] ∧
      df2.rows = [] ∧
      (cols = [] → k = name ++ "_id" ∧ df2.cols = [name ++ "_id"]) ∧
      (cols ≠ [] → k ∈ cols ∧ df2 = ⟨cols, []⟩) := by
  cases cols with
  | nil =>
    refine ⟨name ++ "_id", ⟨[name ++ "_id"], []⟩, ?_, rfl, fun _ => ⟨rfl, rfl⟩,
      fun h => absurd rfl h⟩
    refine normalizeTables_single name _ _ _ rfl ?_ ?_
    · rw [extractDims]
      exact extractDimsGo_id _ _ _ _ _ (fun c hcm => Or.inr (Or.inr (Or.inr rfl)))
    · exact registerFKsOf_single_reg name (name ++ "_id") ⟨[name ++ "_id"], []⟩
  | cons c1 cs =>
    have hfilter : (DF.mk (c1 :: cs) []).cols.filter
        (fun c => noDupB (getCol ⟨c1 :: cs, []⟩ c) && allSome (getCol ⟨c1 :: cs, []⟩ c)) =
        c1 :: cs :=
      List.filter_eq_self.mpr (fun a _ => rfl)
    have hck : findCandidateKeys ⟨c1 :: cs, []⟩ = (c1 :: cs).map (fun c => [c]) := by
      simp only [findCandidateKeys, hfilter, List.map_cons, List.isEmpty_cons,
        Bool.not_false, if_true]
    have hne : (findCandidateKeys ⟨c1 :: cs, []⟩).isEmpty = false := by
      rw [hck]
      rfl
    have hrne : sortCandidates (rankKey name) (findCandidateKeys ⟨c1 :: cs, []⟩) ≠ [] := by
      intro he
      have hl := @length_sortCandidates (rankKey name) (findCandidateKeys ⟨c1 :: cs, []⟩)
      rw [he] at hl
      have : findCandidateKeys ⟨c1 :: cs, []⟩ = [] := List.length_eq_zero.mp hl.symm
      rw [this] at hne
      simp at hne
    obtain ⟨c', hc'mem, hchosen⟩ : ∃ c', c' ∈ c1 :: cs ∧
        (sortCandidates (rankKey name) (findCandidateKeys ⟨c1 :: cs, []⟩)).headD [] = [c'] := by
      have hmem2 : (sortCandidates (rankKey name)
          (findCandidateKeys ⟨c1 :: cs, []⟩)).headD [] ∈ (c1 :: cs).map (fun c => [c]) := by
        rw [← hck]
        exact mem_sortCandidates.mp (headD_mem hrne)
      obtain ⟨c', hc', he⟩ := List.mem_map.mp hmem2
      exact ⟨c', hc', he.symm⟩
    have hpk : ensurePrimaryKey name ⟨c1 :: cs, []⟩ (findCandidateKeys ⟨c1 :: cs, []⟩) =
        ([c'], ⟨c1 :: cs, []⟩) :=
      ensurePrimaryKey_chosen name _ c' hne hchosen hc'mem rfl
    have hbr : buildRegistry [(⟨name, ⟨c1 :: cs, []⟩, [c'], [], [name]⟩ : NTable)] =
        [(c', [name])] := rfl
    refine ⟨c', ⟨c1 :: cs, []⟩, ?_, rfl, fun h => absurd h (by simp),
      fun _ => ⟨hc'mem, rfl⟩⟩
    refine normalizeTables_single name _ _ _ hpk ?_ ?_
    · rw [extractDims]
      exact extractDimsGo_id _ _ _ _ _ (fun c hcm => Or.inr (Or.inr (Or.inr rfl)))
    · rw [hbr]
      exact registerFKsOf_single_reg name c' ⟨c1 :: cs, []⟩

/-!  ### Referential-integrity enforcement lemmas  -/

theorem set_getElem?_self {ts : List NTable} {i : Nat} {t : NTable}
    (h : ts[i]? = some t) : ts.set i t = ts := by
  induction ts generalizing i with
  | nil => simp at h
  | cons x xs ih =>
    cases i with
    | zero =>
      simp only [List.getElem?_cons_zero, Option.some.injEq] at h
      rw [List.set_cons_zero, h]
    | succ j =>
      simp only [List.getElem?_cons_succ] at h
      rw [List.set_cons_succ, ih h]

theorem enforceTable_cases {ts ts1 : List NTable} {i : Nat}
    (h : enforceTable ts i = .ok ts1) :
    (ts[i]? = none ∧ ts1 = ts) ∨
    ∃ t d', ts[i]? = some t ∧ applyFKs ts t.foreign_keys t.df = .ok d' ∧
      ts1 = ts.set i { t with df := d' } := by
  rw [enforceTable] at h
  split at h
  next heq =>
    simp only [Except.ok.injEq] at h
    exact Or.inl ⟨heq, h.symm⟩
  next t heq =>
    cases happ : applyFKs ts t.foreign_keys t.df with
    | error e =>
      rw [happ] at h
      simp [Except.map] at h
    | ok d' =>
      rw [happ] at h
      simp only [Except.map, Except.ok.injEq] at h
      exact Or.inr ⟨t, d', heq, happ, h.symm⟩

theorem lookupTable_set {ts : List NTable} {i : Nat} {n : String} {R t0 t' : NTable}
    (hl : lookupTable ts n = some R) (ht : ts[i]? = some t0)
    (hname : t'.name = t0.name) (heq : t0 = R → t' = R) :
    lookupTable (ts.set i t') n = some R := by
  induction ts generalizing i with
  | nil => simp [lookupTable] at hl
  | cons x xs ih =>
    cases i with
    | zero =>
      simp only [List.getElem?_cons_zero, Option.some.injEq] at ht
      subst ht
      rw [List.set_cons_zero]
      rw [lookupTable] at hl ⊢
      by_cases hx : x.name = n
      · rw [List.find?_cons_of_pos _ (by simp [hx])] at hl
        simp only [Option.some.injEq] at hl
        have ht' := heq hl
        rw [List.find?_cons_of_pos _ (by simp [ht', hl ▸ hx]), ht']
      · rw [List.find?_cons_of_neg _ (by simp [hx])] at hl
        rw [List.find?_cons_of_neg _ (by simp [hname, hx])]
        exact hl
    | succ j =>
      simp only [List.getElem?_cons_succ] at ht
      rw [List.set_cons_succ]
      rw [lookupTable] at hl ⊢
      by_cases hx : x.name = n
      · rw [List.find?_cons_of_pos _ (by simp [hx])] at hl ⊢
        exact hl
      · rw [List.find?_cons_of_neg _ (by simp [hx])] at hl ⊢
        exact ih hl ht

theorem enforceTable_lookup {ts ts1 : List NTable} {i : Nat} {n : String} {R : NTable}
    (h : enforceTable ts i = .ok ts1) (hl : lookupTable ts n = some R)
    (hRfk : R.foreign_keys = []) : lookupTable ts1 n = some R := by
  rcases enforceTable_cases h with ⟨_, rfl⟩ | ⟨t, d', hti, happ, rfl⟩
  · exact hl
  · refine lookupTable_set hl hti rfl (fun he => ?_)
    subst he
    rw [hRfk] at happ
    rw [applyFKs] at happ
    simp only [Except.ok.injEq] at happ
    rw [← happ]

theorem enforceGo_getElem?_not_mem {is : List Nat} {ts ts' : List NTable} {i : Nat}
    (h : enforceGo is ts = .ok ts') (hi : i ∉ is) : ts'[i]? = ts[i]? := by
  induction is generalizing ts with
  | nil =>
    rw [enforceGo] at h
    simp only [Except.ok.injEq] at h
    rw [← h]
  | cons j js ih =>
    rw [enforceGo] at h
    cases h1 : enforceTable ts j with
    | error e => rw [h1] at h; exact absurd h (by simp)
    | ok ts1 =>
      rw [h1] at h
      have hj : i ∉ js := fun hm => hi (List.mem_cons_of_mem _ hm)
      have hij : i ≠ j := fun he => hi (he ▸ List.mem_cons_self j js)
      rw [ih h hj]
      rcases enforceTable_cases h1 with ⟨_, rfl⟩ | ⟨t, d', hti, happ, rfl⟩
      · rfl
      · exact List.getElem?_set_ne (fun he => hij he.symm)

theorem applyFKs_mono {ts : List NTable} {fks : List ForeignKeySpec} {df d' : DF}
    (h : applyFKs ts fks df = .ok d') :
    d'.cols = df.cols ∧ ∀ r ∈ d'.rows, r ∈ df.rows := by
  induction fks generalizing df with
  | nil =>
    rw [applyFKs] at h
    simp only [Except.ok.injEq] at h
    subst h
    exact ⟨rfl, fun r hr => hr⟩
  | cons fk rest ih =>
    rw [applyFKs] at h
    split at h
    next hlt => exact ih h
    next rt hlt =>
      split at h
      next hrc => simp at h
      next k hrc =>
        split at h
        next hcc => simp at h
        next j hcc =>
          obtain ⟨hcols, hrows⟩ := ih h
          refine ⟨hcols, fun r hr => ?_⟩
          exact List.mem_of_mem_filter (hrows r hr)

theorem applyFKs_fk_sat {ts : List NTable} {R : NTable} {v : Val} {d' : DF}
    (fk : ForeignKeySpec) (hR : lookupTable ts fk.ref_table = some R)
    (hv : some v ∈ getCol d' fk.column) :
    ∀ (fks : List ForeignKeySpec) (df : DF), applyFKs ts fks df = .ok d' → fk ∈ fks →
    some v ∈ getCol R.df fk.ref_column := by
  intro fks
  induction fks with
  | nil =>
    intro df h hfk
    simp at hfk
  | cons fk1 rest ih =>
    intro df h hfk
    rw [applyFKs] at h
    rcases List.mem_cons.mp hfk with heq | hfk2
    · subst heq
      split at h
      next hlt =>
        rw [hR] at hlt
        simp at hlt
      next rt hlt =>
        have hrt : rt = R := by
          rw [hR] at hlt
          exact (Option.some.inj hlt).symm
        subst hrt
        split at h
        next hrc => simp at h
        next k hrc =>
          split at h
          next hcc => simp at h
          next j hcc =>
            obtain ⟨hcols, hrows⟩ := applyFKs_mono h
            rw [getCol] at hv
            obtain ⟨r, hr, hcell⟩ := List.mem_map.mp hv
            have hr1 := hrows r hr
            have hkeep := (List.mem_filter.mp hr1).2
            rw [hcols] at hcell
            rw [hcell] at hkeep
            rw [fkKeep] at hkeep
            have hvv : v ∈ List.filterMap id (getCol rt.df fk.ref_column) :=
              List.elem_iff.mp hkeep
            obtain ⟨c, hc, hcv⟩ := List.mem_filterMap.mp hvv
            simp only [id_eq] at hcv
            exact hcv ▸ hc
    · split at h
      next hlt => exact ih df h hfk2
      next rt hlt =>
        split at h
        next hrc => simp at h
        next k hrc =>
          split at h
          next hcc => simp at h
          next j hcc => exact ih _ h hfk2

theorem forall₂_sig_refl (l : List NTable) :
    List.Forall₂ (fun a b : NTable => a.name = b.name ∧ a.foreign_keys = b.foreign_keys) l l := by
  induction l with
  | nil => exact List.Forall₂.nil
  | cons x xs ih => exact List.Forall₂.cons ⟨rfl, rfl⟩ ih

theorem forall₂_sig_trans {a b c : List NTable}
    (h1 : List.Forall₂ (fun a b : NTable => a.name = b.name ∧ a.foreign_keys = b.foreign_keys) a b)
    (h2 : List.Forall₂ (fun a b : NTable => a.name = b.name ∧ a.foreign_keys = b.foreign_keys) b c) :
    List.Forall₂ (fun a b : NTable => a.name = b.name ∧ a.foreign_keys = b.foreign_keys) a c := by
  induction h1 generalizing c with
  | nil =>
    cases h2
    exact List.Forall₂.nil
  | cons hab hrest ih =>
    cases h2 with
    | cons hbc hrest2 =>
      exact List.Forall₂.cons ⟨hab.1.trans hbc.1, hab.2.trans hbc.2⟩ (ih hrest2)

theorem forall₂_sig_set {ts : List NTable} {i : Nat} {t t' : NTable}
    (ht : ts[i]? = some t) (hrel : t.name = t'.name ∧ t.foreign_keys = t'.foreign_keys) :
    List.Forall₂ (fun a b : NTable => a.name = b.name ∧ a.foreign_keys = b.foreign_keys)
      ts (ts.set i t') := by
  induction ts generalizing i with
  | nil => simp at ht
  | cons x xs ih =>
    cases i with
    | zero =>
      simp only [List.getElem?_cons_zero, Option.some.injEq] at ht
      subst ht
      rw [List.set_cons_zero]
      exact List.Forall₂.cons hrel (forall₂_sig_refl xs)
    | succ j =>
      simp only [List.getElem?_cons_succ] at ht
      rw [List.set_cons_succ]
      exact List.Forall₂.cons ⟨rfl, rfl⟩ (ih ht)

theorem enforceGo_sig : ∀ (is : List Nat) (ts ts' : List NTable), enforceGo is ts = .ok ts' →
    List.Forall₂ (fun a b : NTable => a.name = b.name ∧ a.foreign_keys = b.foreign_keys)
      ts ts' := by
  intro is
  induction is with
  | nil =>
    intro ts ts' h
    rw [enforceGo] at h
    simp only [Except.ok.injEq] at h
    subst h
    exact forall₂_sig_refl ts
  | cons i is' ih =>
    intro ts ts' h
    rw [enforceGo] at h
    split at h
    next ts1 heq =>
      refine forall₂_sig_trans ?_ (ih ts1 ts' h)
      rcases enforceTable_cases heq with ⟨_, rfl⟩ | ⟨t, d', hti, happ, rfl⟩
      · exact forall₂_sig_refl _
      · exact forall₂_sig_set hti ⟨rfl, rfl⟩
    next e heq => simp at h

theorem lookup_correspond : ∀ {ts ts' : List NTable},
    List.Forall₂ (fun a b : NTable => a.name = b.name ∧ a.foreign_keys = b.foreign_keys)
      ts ts' →
    ∀ {n : String} {R' : NTable}, lookupTable ts' n = some R' →
    ∃ S, lookupTable ts n = some S ∧ S.name = R'.name ∧ S.foreign_keys = R'.foreign_keys := by
  intro ts ts' hf
  induction hf with
  | nil =>
    intro n R' h
    simp [lookupTable] at h
  | @cons a b as bs hab hrest ih =>
    intro n R' h
    rw [lookupTable] at h ⊢
    by_cases hb : b.name = n
    · rw [List.find?_cons_of_pos _ (by simp [hb])] at h
      have hR' : b = R' := Option.some.inj h
      subst hR'
      have ha : a.name = n := hab.1.trans hb
      rw [List.find?_cons_of_pos _ (by simp [ha])]
      exact ⟨a, rfl, hab.1, hab.2⟩
    · rw [List.find?_cons_of_neg _ (by simp [hb])] at h
      have ha : ¬ a.name = n := fun he => hb (hab.1.symm.trans he)
      rw [List.find?_cons_of_neg _ (by simp [ha])]
      exact ih h

theorem enforceGo_fk_sat : ∀ (is : List Nat) (ts ts' : List NTable),
    enforceGo is ts = .ok ts' → is.Nodup →
    ∀ (n : String) (R : NTable), lookupTable ts n = some R → R.foreign_keys = [] →
    lookupTable ts' n = some R ∧
    (∀ i ∈ is, ∀ t', ts'[i]? = some t' → ∀ fk ∈ t'.foreign_keys, fk.ref_table = n →
      ∀ v : Val, some v ∈ getCol t'.df fk.column → some v ∈ getCol R.df fk.ref_column) := by
  intro is
  induction is with
  | nil =>
    intro ts ts' h _ n R hl hRfk
    rw [enforceGo] at h
    simp only [Except.ok.injEq] at h
    subst h
    exact ⟨hl, by simp⟩
  | cons i is' ih =>
    intro ts ts' h hnd n R hl hRfk
    rw [enforceGo] at h
    split at h
    next ts1 heq =>
      have hl1 : lookupTable ts1 n = some R := enforceTable_lookup heq hl hRfk
      have hnd' : is'.Nodup := (List.nodup_cons.mp hnd).2
      have hi : i ∉ is' := (List.nodup_cons.mp hnd).1
      obtain ⟨hfinal, hrest⟩ := ih ts1 ts' h hnd' n R hl1 hRfk
      refine ⟨hfinal, fun i2 hi2 t' ht' fk hfk href v hv => ?_⟩
      rcases List.mem_cons.mp hi2 with heq2 | hi2'
      · subst heq2
        have hts1 : ts'[i2]? = ts1[i2]? := enforceGo_getElem?_not_mem h hi
        rcases enforceTable_cases heq with ⟨hnone, rfl⟩ | ⟨t, d', hti, happ, rfl⟩
        · rw [hts1, hnone] at ht'
          simp at ht'
        · have hlt2 : i2 < ts.length := by
            by_contra hge
            rw [List.getElem?_eq_none (by omega)] at hti
            simp at hti
          rw [hts1, List.getElem?_set_self (by simpa using hlt2)] at ht'
          have ht'' := Option.some.inj ht'
          subst ht''
          refine applyFKs_fk_sat fk (href ▸ hl) hv t.foreign_keys t.df happ hfk
      · exact hrest i2 hi2' t' ht' fk hfk href v hv
    next e heq => simp at h

/-- C2, amended: after the single enforcement pass, the referential-integrity
postcondition holds for every ForeignKeySpec whose referenced table has no
foreign keys of its own (such a table is never filtered, e.g. a dimension
table in the intended star topology): every non-null value of the FK column
appears among the referenced table's key-column values.  The unconditional
claim fails — see the counterexample, where a referenced table is filtered
after its referrer was checked. -/
theorem c2_fk_sat_ref_no_outgoing (ts ts' : List NTable)
    (h : enforceReferentialIntegrity ts = .ok ts')
    (T : NTable) (hT : T ∈ ts') (fk : ForeignKeySpec) (hfk : fk ∈ T.foreign_keys)
    (R : NTable) (hR : lookupTable ts' fk.ref_table = some R)
    (hRfk : R.foreign_keys = []) (v : Val)
    (hv : some v ∈ getCol T.df fk.column) :
    some v ∈ getCol R.df fk.ref_column := by
  rw [enforceReferentialIntegrity] at h
  have hsig := enforceGo_sig (List.range ts.length) ts ts' h
  obtain ⟨S, hS, hSname, hSfk⟩ := lookup_correspond hsig hR
  have hSfk0 : S.foreign_keys = [] := hSfk.trans hRfk
  obtain ⟨hfinal, hmain⟩ := enforceGo_fk_sat (List.range ts.length) ts ts' h
    (List.nodup_range _) fk.ref_table S hS hSfk0
  have hSR : S = R := by
    rw [hfinal] at hR
    exact Option.some.inj hR
  subst hSR
  obtain ⟨i, hilt, hie⟩ := List.mem_iff_getElem.mp hT
  have hlen : ts.length = ts'.length := hsig.length_eq
  refine hmain i (List.mem_range.mpr (by omega)) T ?_ fk hfk rfl v hv
  rw [List.getElem?_eq_getElem hilt, hie]

/-- C2, witness: a two-table state where the referenced table `d` has no
foreign keys; after enforcement the value `1` in the referring column is
among `d`'s key values. -/
theorem c2_fk_sat_ref_no_outgoing_witness :
    some (Val.int 1) ∈ getCol (DF.mk ["k"] [[some (Val.int 1)]]) "k" :=
  c2_fk_sat_ref_no_outgoing
    [⟨"d", ⟨["k"], [[some (Val.int 1)]]⟩, ["k"], [], []⟩,
     ⟨"t", ⟨["x", "k"], [[some (Val.int 9), some (Val.int 1)]]⟩, ["x"],
       [⟨"k", "d", "k"⟩], []⟩]
    [⟨"d", ⟨["k"], [[some (Val.int 1)]]⟩, ["k"], [], []⟩,
     ⟨"t", ⟨["x", "k"], [[some (Val.int 9), some (Val.int 1)]]⟩, ["x"],
       [⟨"k", "d", "k"⟩], []⟩]
    rfl
    ⟨"t", ⟨["x", "k"], [[some (Val.int 9), some (Val.int 1)]]⟩, ["x"],
      [⟨"k", "d", "k"⟩], []⟩ (by decide) ⟨"k", "d", "k"⟩ (by decide)
    ⟨"d", ⟨["k"], [[some (Val.int 1)]]⟩, ["k"], [], []⟩ (by decide) rfl
    (Val.int 1) (by decide)

/-!  ### C6: order-independence of the pre-enforcement dimension merge  -/

theorem containsb_iff_mem {α : Type} [BEq α] [LawfulBEq α] {l : List α} {a : α} :
    l.contains a = true ↔ a ∈ l :=
  List.elem_iff

theorem assocFind_cons {τ : Type} (k' : String) (v : τ) (rest : List (String × τ))
    (k : String) :
    assocFind ((k', v) :: rest) k = if k' = k then some v else assocFind rest k := rfl

theorem assocFind_eq_none {τ : Type} {l : List (String × τ)} {k : String}
    (h : k ∉ l.map Prod.fst) : assocFind l k = none := by
  induction l with
  | nil => rfl
  | cons e rest ih =>
    obtain ⟨k', v⟩ := e
    simp only [List.map_cons, List.mem_cons, not_or] at h
    rw [assocFind_cons, if_neg (fun he => h.1 he.symm)]
    exact ih h.2

theorem assocFind_append {τ : Type} (l : List (String × τ)) (e : String × τ) (k : String) :
    assocFind (l ++ [e]) k =
      match assocFind l k with
      | some v => some v
      | none => if e.1 = k then some e.2 else none := by
  obtain ⟨k0, v0⟩ := e
  induction l with
  | nil => rfl
  | cons f rest ih =>
    obtain ⟨k', v'⟩ := f
    rw [List.cons_append, assocFind_cons, assocFind_cons]
    by_cases hk : k' = k
    · rw [if_pos hk, if_pos hk]
    · rw [if_neg hk, if_neg hk, ih]

theorem assocFind_assocSet {τ : Type} (l : List (String × τ)) (k : String) (v : τ)
    (n : String) :
    assocFind (assocSet l k v) n = if k = n then some v else assocFind l n := by
  induction l with
  | nil =>
    show assocFind [(k, v)] n = _
    rw [assocFind_cons]
  | cons e rest ih =>
    obtain ⟨k', v'⟩ := e
    show assocFind (if k' = k then (k, v) :: rest else (k', v') :: assocSet rest k v) n = _
    by_cases hk : k' = k
    · subst hk
      rw [if_pos rfl, assocFind_cons, assocFind_cons]
      by_cases hn : k' = n
      · simp [hn]
      · simp [hn]
    · rw [if_neg hk, assocFind_cons, ih, assocFind_cons]
      by_cases hn : k' = n
      · have hkn : ¬ (k = n) := fun h => hk (hn.trans h.symm)
        simp [hn, hkn]
      · simp [hn]

theorem assocSet_keys {τ : Type} (l : List (String × τ)) (k : String) (v : τ) :
    (assocSet l k v).map Prod.fst =
      if k ∈ l.map Prod.fst then l.map Prod.fst else l.map Prod.fst ++ [k] := by
  induction l with
  | nil => simp [assocSet]
  | cons e rest ih =>
    obtain ⟨k', v'⟩ := e
    show ((if k' = k then (k, v) :: rest else (k', v') :: assocSet rest k v).map
        Prod.fst) = _
    by_cases hk : k' = k
    · subst hk
      rw [if_pos rfl]
      simp
    · rw [if_neg hk]
      simp only [List.map_cons, ih, List.mem_cons]
      by_cases hm : k ∈ rest.map Prod.fst
      · rw [if_pos hm, if_pos (Or.inr hm)]
      · rw [if_neg hm, if_neg, List.cons_append]
        rintro (h | h)
        · exact hk h.symm
        · exact hm h

theorem nodup_keys_assocSet {τ : Type} {l : List (String × τ)} (k : String) (v : τ)
    (h : (l.map Prod.fst).Nodup) : ((assocSet l k v).map Prod.fst).Nodup := by
  rw [assocSet_keys]
  split
  · exact h
  · next hk =>
    refine h.append (List.nodup_singleton k) ?_
    intro a ha hb
    rw [List.mem_singleton] at hb
    subst hb
    exact hk ha

theorem extractDimsGo_keys_nodup (tname : String) (pk : List String) :
    ∀ (cs : List String) (dims : List (String × NTable)) (df : DF),
      (dims.map Prod.fst).Nodup →
      ((extractDimsGo tname pk cs dims df).1.map Prod.fst).Nodup := by
  intro cs
  induction cs with
  | nil => intro dims df h; exact h
  | cons c cs ih =>
    intro dims df h
    simp only [extractDimsGo]
    split
    · exact ih dims df h
    · split
      · exact ih dims df h
      · split
        · exact ih dims df h
        · split
          · exact ih dims df h
          · exact ih _ _ (nodup_keys_assocSet _ _ h)

theorem tableDims_keys_nodup (s : SrcTable) : ((tableDims s).map Prod.fst).Nodup := by
  rw [tableDims, extractDims]
  exact extractDimsGo_keys_nodup _ _ _ _ _ List.nodup_nil

theorem mergeDims_disjoint :
    ∀ {ds acc : List (String × NTable)}, (ds.map Prod.fst).Nodup →
      (∀ e ∈ ds, e.1 ∉ acc.map Prod.fst) → mergeDims acc ds = acc ++ ds := by
  intro ds
  induction ds with
  | nil => intro acc _ _; simp [mergeDims]
  | cons e rest ih =>
    intro acc hnd hdisj
    obtain ⟨k, b⟩ := e
    simp only [List.map_cons, List.nodup_cons] at hnd
    obtain ⟨hknotin, hndrest⟩ := hnd
    have hfind : assocFind acc k = none :=
      assocFind_eq_none (hdisj (k, b) (List.mem_cons_self _ _))
    have hmd : mergeDim acc (k, b) = acc ++ [(k, b)] := by
      simp only [mergeDim, hfind]
    have hdisj' : ∀ e ∈ rest, e.1 ∉ (acc ++ [(k, b)]).map Prod.fst := by
      intro e he
      simp only [List.map_append, List.mem_append, List.map_cons, List.map_nil]
      rintro (h | h)
      · exact hdisj e (List.mem_cons_of_mem _ he) h
      · rw [List.mem_singleton] at h
        exact hknotin (h ▸ List.mem_map.mpr ⟨e, he, rfl⟩)
    rw [show mergeDims acc ((k, b) :: rest) = mergeDims (mergeDim acc (k, b)) rest from rfl,
      hmd, ih hndrest hdisj', List.append_assoc, List.singleton_append]

theorem mergeDims_nil {ds : List (String × NTable)}
    (hnd : (ds.map Prod.fst).Nodup) : mergeDims [] ds = ds := by
  rw [mergeDims_disjoint hnd (fun e _ => by simp), List.nil_append]

theorem assocFind_mergeDims {n : String} :
    ∀ {ds acc : List (String × NTable)}, (ds.map Prod.fst).Nodup →
    assocFind (mergeDims acc ds) n =
      match assocFind ds n with
      | none => assocFind acc n
      | some b =>
        match assocFind acc n with
        | some a => some (mergedNT a b)
        | none => some b := by
  intro ds
  induction ds with
  | nil => intro acc _; rfl
  | cons e rest ih =>
    intro acc hnd
    obtain ⟨k, b⟩ := e
    simp only [List.map_cons, List.nodup_cons] at hnd
    obtain ⟨hknotin, hndrest⟩ := hnd
    rw [show mergeDims acc ((k, b) :: rest) = mergeDims (mergeDim acc (k, b)) rest from rfl,
      ih hndrest, assocFind_cons]
    by_cases hkn : k = n
    · subst hkn
      have hrest : assocFind rest k = none := assocFind_eq_none hknotin
      have hif : (if k = k then some b else assocFind rest k) = some b := if_pos rfl
      rw [hif, hrest]
      show assocFind (mergeDim acc (k, b)) k =
        match assocFind acc k with
        | some a => some (mergedNT a b)
        | none => some b
      cases hfa : assocFind acc k with
      | some a =>
        have hmd : mergeDim acc (k, b) = assocSet acc k (mergedNT a b) := by
          simp only [mergeDim, hfa, mergedNT]
        rw [hmd, assocFind_assocSet]
        simp
      | none =>
        have hmd : mergeDim acc (k, b) = acc ++ [(k, b)] := by
          simp only [mergeDim, hfa]
        rw [hmd, assocFind_append, hfa]
        simp
    · rw [if_neg hkn]
      have hmdn : assocFind (mergeDim acc (k, b)) n = assocFind acc n := by
        cases hfa : assocFind acc k with
        | some a =>
          simp only [mergeDim, hfa]
          rw [assocFind_assocSet, if_neg hkn]
        | none =>
          simp only [mergeDim, hfa]
          rw [assocFind_append]
          cases hfn : assocFind acc n with
          | some v => rfl
          | none =>
            show (if k = n then some b else none) = none
            rw [if_neg hkn]
      rw [hmdn]

theorem mem_dedupRowsAux {a : Row} :
    ∀ {rs seen : List Row}, a ∈ dedupRowsAux seen rs ↔ a ∈ rs ∧ a ∉ seen := by
  intro rs
  induction rs with
  | nil => intro seen; simp [dedupRowsAux]
  | cons r rest ih =>
    intro seen
    rw [dedupRowsAux]
    by_cases hs : seen.contains r
    · rw [if_pos hs, ih]
      have hrs : r ∈ seen := containsb_iff_mem.mp hs
      have himp : a = r → a ∈ seen := fun h => by rw [h]; exact hrs
      simp only [List.mem_cons]
      constructor
      · rintro ⟨h1, h2⟩
        exact ⟨Or.inr h1, h2⟩
      · rintro ⟨h1 | h1, h2⟩
        · exact absurd (himp h1) h2
        · exact ⟨h1, h2⟩
    · rw [if_neg hs]
      have hrs : r ∉ seen := fun hm => hs (containsb_iff_mem.mpr hm)
      simp only [List.mem_cons, ih, not_or]
      constructor
      · rintro (h1 | ⟨h1, h2, h3⟩)
        · exact ⟨Or.inl h1, by rw [h1]; exact hrs⟩
        · exact ⟨Or.inr h1, h3⟩
      · rintro ⟨h1 | h1, h2⟩
        · exact Or.inl h1
        · by_cases har : a = r
          · exact Or.inl har
          · exact Or.inr ⟨h1, har, h2⟩

theorem recordSet_dedupDF (d : DF) : recordSet (dedupDF d) = recordSet d := by
  rw [recordSet, recordSet, dedupDF]
  ext s
  simp only [List.mem_toFinset, List.mem_map]
  constructor
  · rintro ⟨r, hr, rfl⟩
    exact ⟨r, (mem_dedupRowsAux.mp hr).1, rfl⟩
  · rintro ⟨r, hr, rfl⟩
    exact ⟨r, mem_dedupRowsAux.mpr ⟨hr, List.not_mem_nil r⟩, rfl⟩

theorem toFinset_map_image {α β : Type} [DecidableEq α] [DecidableEq β]
    (l : List α) (g : α → β) : (l.map g).toFinset = l.toFinset.image g := by
  ext x
  simp

theorem recordOf_map (U : List String) (f : String → Cell) :
    recordOf U (U.map f) = U.toFinset.image (fun c => (c, f c)) := by
  rw [recordOf]
  have hz : ∀ (V : List String), V.zip (V.map f) = V.map (fun a => (a, f a)) := by
    intro V
    induction V with
    | nil => rfl
    | cons c cs ihz => simp [ihz]
  rw [hz, toFinset_map_image]

theorem concat_cols_toFinset (x y : DF) :
    (x.cols ++ y.cols.filter (fun c => !(x.cols.contains c))).toFinset =
      x.cols.toFinset ∪ y.cols.toFinset := by
  ext c
  simp only [List.toFinset_append, Finset.mem_union, List.mem_toFinset, List.mem_filter,
    Bool.not_eq_true']
  constructor
  · rintro (h | ⟨h, _⟩)
    · exact Or.inl h
    · exact Or.inr h
  · rintro (h | h)
    · exact Or.inl h
    · by_cases hx : c ∈ x.cols
      · exact Or.inl hx
      · exact Or.inr ⟨h, Bool.eq_false_iff.mpr (fun hc => hx (containsb_iff_mem.mp hc))⟩

theorem recordSet_concatOuter (x y : DF) :
    recordSet (concatOuter x y) =
      (x.rows.map (fun r => (x.cols.toFinset ∪ y.cols.toFinset).image
          (fun c => (c, cellOf x.cols r c)))).toFinset ∪
      (y.rows.map (fun r => (x.cols.toFinset ∪ y.cols.toFinset).image
          (fun c => (c, cellOf y.cols r c)))).toFinset := by
  simp only [recordSet, concatOuter]
  rw [List.map_append, List.toFinset_append]
  congr 1
  · rw [List.map_map]
    congr 1
    refine List.map_congr_left ?_
    intro r _
    simp only [Function.comp_apply]
    rw [recordOf_map, concat_cols_toFinset]
  · rw [List.map_map]
    congr 1
    refine List.map_congr_left ?_
    intro r _
    simp only [Function.comp_apply]
    rw [recordOf_map, concat_cols_toFinset]

theorem recordSet_concatOuter_comm (x y : DF) :
    recordSet (concatOuter x y) = recordSet (concatOuter y x) := by
  rw [recordSet_concatOuter x y, recordSet_concatOuter y x]
  simp only [Finset.union_comm y.cols.toFinset x.cols.toFinset]
  rw [Finset.union_comm]

theorem assocFind_mergeDims_pair {dA dB : List (String × NTable)}
    (hA : (dA.map Prod.fst).Nodup) (hB : (dB.map Prod.fst).Nodup) (n : String) :
    (assocFind (mergeDims (mergeDims [] dA) dB) n).map (fun t => recordSet t.df) =
      (assocFind (mergeDims (mergeDims [] dB) dA) n).map (fun t => recordSet t.df) := by
  rw [mergeDims_nil hA, mergeDims_nil hB, assocFind_mergeDims hB, assocFind_mergeDims hA]
  cases hfa : assocFind dA n with
  | none =>
    cases hfb : assocFind dB n with
    | none => rfl
    | some b => rfl
  | some a =>
    cases hfb : assocFind dB n with
    | none => rfl
    | some b =>
      show some (recordSet (mergedNT a b).df) = some (recordSet (mergedNT b a).df)
      rw [show (mergedNT a b).df = dedupDF (concatOuter a.df b.df) from rfl,
        show (mergedNT b a).df = dedupDF (concatOuter b.df a.df) from rfl,
        recordSet_dedupDF, recordSet_dedupDF, recordSet_concatOuter_comm]

/-- **C6** (amended): the run-scoped dimension-table registry built by the
per-table loop of `NormalizationEngine.normalize` is order-independent as a
map from dimension names to row-record sets, for a two-table source set:
processing the sources in either order yields, for every dimension name, the
same set of row records (before foreign-key registration and
referential-integrity enforcement).  The original claim extended this to the
final database, which fails because referential-integrity enforcement reads
the dimension through the insertion-ordered table list (see
`c6_counterexample`). -/
theorem c6_loop_dim_order_independent (A B : SrcTable) (n : String) :
    loopDimRecords [A, B] n = loopDimRecords [B, A] n := by
  rw [show loopDimRecords [A, B] n =
      (assocFind (mergeDims (mergeDims [] (tableDims A)) (tableDims B)) n).map
        (fun t => recordSet t.df) from rfl,
    show loopDimRecords [B, A] n =
      (assocFind (mergeDims (mergeDims [] (tableDims B)) (tableDims A)) n).map
        (fun t => recordSet t.df) from rfl]
  exact assocFind_mergeDims_pair (tableDims_keys_nodup A) (tableDims_keys_nodup B) n
